import Mathlib

set_option maxHeartbeats 2000000
set_option maxRecDepth 8000

/-!
Verification development for the obi orchestrator (Go sources under
internal/app, internal/fenced, internal/footer, internal/interactive).

Text is modeled as `List Char`, one entry per rune of the Go string; all the
texts the claims touch are ASCII, and Go's `strings.ToLower` / `TrimSpace`
are modeled at the ASCII level.  Fallible Go functions returning `error`
become `Except` values whose error type is an inductive carrying the data of
the corresponding `fmt.Errorf` message.
-/

deriving instance DecidableEq for Except

/-! ## Basic text helpers (mirroring the `strings` package operations used) -/

def vtabCh : Char := Char.ofNat 11

def ffeedCh : Char := Char.ofNat 12

/-- ASCII white space, as recognized by Go's `unicode.IsSpace` on ASCII input. -/
def isSpaceCh (c : Char) : Bool :=
  c = ' ' || c = '\t' || c = '\n' || c = vtabCh || c = ffeedCh || c = '\r'

/-- Go `strings.TrimLeft` over white space. -/
def trimLeftWs (s : List Char) : List Char := s.dropWhile isSpaceCh

/-- Go `strings.TrimRight` over white space. -/
def trimRightWs (s : List Char) : List Char := (s.reverse.dropWhile isSpaceCh).reverse

/-- Go `strings.TrimSpace`. -/
def trimWs (s : List Char) : List Char := trimRightWs (trimLeftWs s)

/-- Go `strings.TrimRight` with an explicit cut set. -/
def trimRightCut (cut : List Char) (s : List Char) : List Char :=
  (s.reverse.dropWhile (fun c => cut.contains c)).reverse

/-- Go `strings.ToLower` on one ASCII character. -/
def lowerChar (c : Char) : Char :=
  if 65 ≤ c.toNat ∧ c.toNat ≤ 90 then Char.ofNat (c.toNat + 32) else c

/-- Go `strings.ToLower` (ASCII). -/
def lowerStr (s : List Char) : List Char := s.map lowerChar

/-- `stripPre p s` returns `some t` with `s = p ++ t` when `p` is a prefix of `s`
(Go `strings.TrimPrefix` under a `strings.HasPrefix` guard). -/
def stripPre : List Char → List Char → Option (List Char)
  | [], s => some s
  | _ :: _, [] => none
  | p :: ps, c :: cs => if p = c then stripPre ps cs else none

/-- Go `strings.Contains`. -/
def containsSub (pat : List Char) : List Char → Bool
  | [] => (stripPre pat []).isSome
  | c :: rest => (stripPre pat (c :: rest)).isSome || containsSub pat rest

/-- Fuel-driven core of `replaceAll`; the fuel is an upper bound on the input
length, so the wrapper below always supplies enough. -/
def replaceAux (pat rep : List Char) : Nat → List Char → List Char
  | 0, _ => []
  | _ + 1, [] => []
  | fuel + 1, c :: rest =>
    match stripPre pat (c :: rest) with
    | some s2 => rep ++ replaceAux pat rep fuel s2
    | none => c :: replaceAux pat rep fuel rest

/-- Go `strings.ReplaceAll old new` for non-empty `old` (every caller in the
sources guarantees a non-empty pattern; an empty pattern is returned
unchanged here). Greedy left-to-right, non-overlapping. -/
def replaceAll (pat rep s : List Char) : List Char :=
  if pat = [] then s else replaceAux pat rep s.length s

/-- Go `strings.Split s "\n"`. -/
def splitOnNl : List Char → List (List Char)
  | [] => [[]]
  | c :: rest =>
    match splitOnNl rest with
    | [] => [[]]
    | l :: ls => if c = '\n' then [] :: l :: ls else (c :: l) :: ls

/-- Join with a newline separator (Go `strings.Join lines "\n"`). -/
def joinNl : List (List Char) → List Char
  | [] => []
  | [l] => l
  | l :: ls => l ++ '\n' :: joinNl ls

/-- First-occurrence split at a character (Go `strings.Index` plus slicing). -/
def breakAtChar (target : Char) : List Char → Option (List Char × List Char)
  | [] => none
  | c :: rest =>
    if c = target then some ([], rest)
    else (breakAtChar target rest).map (fun p => (c :: p.1, p.2))

/-! ## Redaction (internal/interactive redactor.go `secretRedactor`, internal/app redact.go `redactText`) -/

def redactedPlaceholder : List Char := "[REDACTED]".data

/-- `newSecretRedactor` + `secretRedactor.Redact`: drop secrets that are blank
after trimming, then replace each remaining secret in order. -/
def secretRedact (secrets : List (List Char)) (input : List Char) : List Char :=
  let clean := secrets.filter (fun s => !(trimWs s).isEmpty)
  clean.foldl (fun out sec => replaceAll sec redactedPlaceholder out) input

/-- The loop of `redactText`: the accumulator is `(out, redacted)`. -/
def redactTextGo : List (List Char) → List Char × Bool → List Char × Bool
  | [], acc => acc
  | sec0 :: rest, acc =>
    let sec := trimWs sec0
    if sec = [] then redactTextGo rest acc
    else if containsSub sec acc.1 then
      redactTextGo rest (replaceAll sec redactedPlaceholder acc.1, true)
    else redactTextGo rest acc

/-- `redactText` from internal/app: trims each secret, skips blanks, replaces
under a `strings.Contains` guard, and reports whether anything changed. -/
def redactTextApp (secrets : List (List Char)) (input : List Char) : List Char × Bool :=
  if secrets = [] then (input, false)
  else redactTextGo secrets (input, false)

/-! ## Fenced report parser (internal/fenced/parser.go) -/

inductive PState
  | seeking
  | inBody
  | finished
deriving DecidableEq, Repr

/-- `fenced.Result`. -/
structure FResult where
  sessionID : List Char
  status : List Char
  commitMsg : List Char
  details : List Char
  escalation : List Char
deriving DecidableEq, Repr

def emptyFResult : FResult := ⟨[], [], [], [], []⟩

/-- The errors the parser can return, one constructor per `fmt.Errorf` site. -/
inductive PErr
  | fenceMissingSessionID
  | fenceSessionMismatch (got expected : List Char)
  | malformedLine (line : List Char)
  | statusEmpty
  | invalidStatus (value : List Char)
  | commitMsgEmpty
  | detailsMultiple
  | detailsEmpty
  | unknownField (key : List Char)
  | detailsBlockEmpty
  | missingSessionID
  | missingStatus
  | missingCommitMsg
  | missingDetails
  | needsHelpRequiresEscalation
  | reportNotFound
  | reportDidNotClose
  | unexpectedState
deriving DecidableEq, Repr

/-- The mutable fields of `fenced.Parser` other than the `hold` buffer
(`details` is the `strings.Builder` contents). -/
structure FCore where
  expectedID : List Char
  state : PState
  res : FResult
  done : Bool
  collecting : Bool
  detailsBuf : List Char
deriving DecidableEq, Repr

def btickCh : Char := Char.ofNat 96

def fenceMark : List Char := "```".data

def fencePre : List Char := "```obi:".data

def statusKey : List Char := "status".data

def commitKey : List Char := "commit_msg".data

def detailsKey : List Char := "details".data

def escalationKey : List Char := "escalation".data

def successStr : List Char := "success".data

def needsHelpStr : List Char := "needs_help".data

/-- `isFieldLine`. -/
def isFieldLine (line : List Char) : Bool :=
  match line with
  | [] => false
  | c :: _ => !(c = btickCh) && line.contains ':'

/-- `stripIndent`. -/
def stripIndent (line : List Char) : List Char :=
  match line with
  | [] => []
  | c :: rest =>
    if c = '\t' then rest
    else if c = ' ' then
      match rest with
      | c2 :: rest2 => if c2 = ' ' then rest2 else rest
      | [] => rest
    else c :: rest

/-- `startsIndented`. -/
def startsIndented (line : List Char) : Bool :=
  match line with
  | [] => false
  | c :: _ => c = ' ' || c = '\t'

/-- `Parser.processField`. -/
def processField (c : FCore) (line : List Char) : Except PErr FCore :=
  match breakAtChar ':' line with
  | none => .error (.malformedLine line)
  | some (k, v) =>
    let key := lowerStr (trimWs k)
    let value := trimWs v
    if key = statusKey then
      if value = [] then .error .statusEmpty
      else
        let lower := lowerStr value
        if lower ≠ successStr ∧ lower ≠ needsHelpStr then .error (.invalidStatus value)
        else .ok { c with res := { c.res with status := lower } }
    else if key = commitKey then
      if value = [] then .error .commitMsgEmpty
      else .ok { c with res := { c.res with commitMsg := value } }
    else if key = detailsKey then
      if c.res.details ≠ [] ∨ c.collecting = true then .error .detailsMultiple
      else if value = [] then .error .detailsEmpty
      else if value = ['|'] then .ok { c with collecting := true, detailsBuf := [] }
      else .ok { c with res := { c.res with details := value } }
    else if key = escalationKey then .ok { c with res := { c.res with escalation := value } }
    else .error (.unknownField key)

/-- `Parser.finishDetails`. -/
def finishDetails (c : FCore) : Except PErr FCore :=
  let text := trimRightCut ['\n'] c.detailsBuf
  if trimWs text = [] then .error .detailsBlockEmpty
  else .ok { c with res := { c.res with details := text } }

/-- `Parser.validateResult`. -/
def validateResult (r : FResult) : Except PErr Unit :=
  if r.sessionID = [] then .error .missingSessionID
  else if r.status = [] then .error .missingStatus
  else if r.commitMsg = [] then .error .missingCommitMsg
  else if r.details = [] then .error .missingDetails
  else if r.status = needsHelpStr ∧ trimWs r.escalation = [] then .error .needsHelpRequiresEscalation
  else .ok ()

/-- `Parser.consumeDetailLine` (the closing-fence branch inside it is kept even
though `handleLine` intercepts that case first, exactly as in the source). -/
def consumeDetailLine (c : FCore) (line : List Char) : Except PErr (Bool × FCore) :=
  let trimmed := trimWs line
  if trimmed = [] then .ok (true, { c with detailsBuf := c.detailsBuf ++ ['\n'] })
  else if trimmed = fenceMark then
    match finishDetails c with
    | .error e => .error e
    | .ok c1 =>
      match validateResult c1.res with
      | .error e => .error e
      | .ok _ => .ok (true, { c1 with collecting := false, done := true, state := .finished })
  else if startsIndented line = false ∧ isFieldLine trimmed = true then
    match finishDetails c with
    | .error e => .error e
    | .ok c1 => .ok (false, { c1 with collecting := false })
  else .ok (true, { c with detailsBuf := c.detailsBuf ++ stripIndent line ++ ['\n'] })

/-- `Parser.handleLine`. Errors discard the partially-mutated receiver; every
driver in the sources stops consuming the parser once an error is returned, so
the post-error state is unobservable. -/
def handleLine (c : FCore) (line : List Char) : Except PErr FCore :=
  let trimmed := trimWs line
  match c.state with
  | .seeking =>
    if fencePre.isPrefixOf (lowerStr trimmed) then
      let sid := trimWs (trimmed.drop fencePre.length)
      if sid = [] then .error .fenceMissingSessionID
      else if c.expectedID ≠ [] ∧ sid ≠ c.expectedID then
        .error (.fenceSessionMismatch sid c.expectedID)
      else .ok { c with state := .inBody, res := { emptyFResult with sessionID := sid } }
    else .ok c
  | .inBody =>
    if trimmed = fenceMark then
      match (if c.collecting then finishDetails c else .ok c) with
      | .error e => .error e
      | .ok c1 =>
        match validateResult c1.res with
        | .error e => .error e
        | .ok _ => .ok { c1 with collecting := false, done := true, state := .finished }
    else if c.collecting then
      match consumeDetailLine c line with
      | .error e => .error e
      | .ok (true, c2) => .ok c2
      | .ok (false, c2) =>
        if trimWs line = [] then .ok c2
        else processField c2 (trimWs line)
    else
      if trimmed = [] then .ok c
      else processField c trimmed
  | .finished => .ok c

/-- The whole parser: core state plus the `hold` line buffer. -/
structure FParser where
  core : FCore
  hold : List Char
deriving DecidableEq, Repr

/-- `fenced.NewParser`. -/
def newParser (sessionID : List Char) : FParser :=
  { core := { expectedID := trimWs sessionID, state := .seeking, res := emptyFResult,
              done := false, collecting := false, detailsBuf := [] },
    hold := [] }

/-- The chunk normalization in `Feed`: `ReplaceAll "\r\n" "\n"` followed by
`ReplaceAll "\r" "\n"`. -/
def normalizeGo (s : List Char) : List Char :=
  replaceAll ['\r'] ['\n'] (replaceAll "\r\n".data ['\n'] s)

/-- One-pass equivalent of `normalizeGo`, used only in proofs. -/
def normalizeChunk : List Char → List Char
  | [] => []
  | [c] => if c = '\r' then ['\n'] else [c]
  | c1 :: c2 :: rest =>
    if c1 = '\r' then
      if c2 = '\n' then '\n' :: normalizeChunk rest
      else '\n' :: normalizeChunk (c2 :: rest)
    else c1 :: normalizeChunk (c2 :: rest)

/-- Split a buffer into its complete lines and the trailing line fragment
(the repeated `IndexByte(hold, '\n')` loop in `Feed`). -/
def splitBuf : List Char → List (List Char) × List Char
  | [] => ([], [])
  | c :: rest =>
    let p := splitBuf rest
    if c = '\n' then ([] :: p.1, p.2)
    else
      match p.1 with
      | [] => ([], c :: p.2)
      | l :: ls2 => ((c :: l) :: ls2, p.2)

/-- Run `handleLine` over complete lines; mirrors `Feed`'s loop, which stops
as soon as the parser reports `done` or an error. -/
def runLines (c : FCore) : List (List Char) → Except PErr FCore
  | [] => .ok c
  | l :: ls =>
    if c.done then .ok c
    else
      match handleLine c l with
      | .error e => .error e
      | .ok c2 => runLines c2 ls

/-- `Parser.Feed`. `.ok (some r)` is Go's `(r, true, nil)`, `.ok none` is
`(zero, false, nil)`. On `done` or error the source leaves any unprocessed
text in `hold`; here `hold` is set to the final fragment, which no caller can
observe (after `done` the buffer is ignored, and every driver stops at the
first error). -/
def feedF (p : FParser) (chunk : List Char) : Except PErr (Option FResult) × FParser :=
  if p.core.done then (.ok (some p.core.res), p)
  else if chunk = [] then (.ok none, p)
  else
    let sp := splitBuf (p.hold ++ normalizeGo chunk)
    match runLines p.core sp.1 with
    | .error e => (.error e, { core := p.core, hold := sp.2 })
    | .ok c2 =>
      if c2.done then (.ok (some c2.res), { core := c2, hold := sp.2 })
      else (.ok none, { core := c2, hold := sp.2 })

/-- `Parser.Finalize`. -/
def finalizeF (p : FParser) : Except PErr FResult :=
  if p.core.done then .ok p.core.res
  else
    match (if p.hold = [] then Except.ok p.core else handleLine p.core p.hold) with
    | .error e => .error e
    | .ok c2 =>
      if c2.done then .ok c2.res
      else
        match c2.state with
        | .seeking => .error .reportNotFound
        | .inBody => .error .reportDidNotClose
        | .finished => .error .unexpectedState

/-- Feed a sequence of chunks and finalize, stopping at the first error or
completed report (the driver shape used by `parseFencedReport` and by the
sentinel's event loop). -/
def runChunksGo (p : FParser) : List (List Char) → Except PErr FResult
  | [] => finalizeF p
  | chunk :: rest =>
    match feedF p chunk with
    | (.error e, _) => .error e
    | (.ok (some r), _) => .ok r
    | (.ok none, p2) => runChunksGo p2 rest

def runChunks (sessionID : List Char) (chunks : List (List Char)) : Except PErr FResult :=
  runChunksGo (newParser sessionID) chunks

/-- `parseFencedReport` from internal/app/app.go: one `Feed` of the whole
output, then `Finalize`. -/
def parseFencedReport (sessionID output : List Char) : Except PErr FResult :=
  runChunks sessionID [output]

/-! ## Legacy footer parser (internal/footer) -/

def statusPre : List Char := "STATUS:".data

def commitPre : List Char := "COMMIT_MSG:".data

def escalationPre : List Char := "ESCALATION:".data

/-- `footer.Result`. -/
structure FooterRes where
  status : List Char
  commitMsg : List Char
  escalation : List Char
deriving DecidableEq, Repr

inductive FooterErr
  | missingStatus
  | missingCommit
  | needsEscalation
deriving DecidableEq, Repr

/-- One iteration of `footer.Parse`'s line loop; the accumulator is
`(res, collectingCommit)`. -/
def footerStep (acc : FooterRes × Bool) (line : List Char) : FooterRes × Bool :=
  let trimmed := trimWs line
  match stripPre statusPre trimmed with
  | some v => ({ acc.1 with status := trimWs v }, false)
  | none =>
    match stripPre commitPre trimmed with
    | some v => ({ acc.1 with commitMsg := trimWs v }, true)
    | none =>
      match stripPre escalationPre trimmed with
      | some v => ({ acc.1 with escalation := trimWs v }, false)
      | none =>
        if acc.2 then
          ({ acc.1 with
             commitMsg := if acc.1.commitMsg = [] then trimmed
                          else acc.1.commitMsg ++ '\n' :: trimmed }, acc.2)
        else acc

/-- `footer.Parse`. -/
def footerParse (output : List Char) : Except FooterErr FooterRes :=
  let acc := (splitOnNl output).foldl footerStep (⟨[], [], []⟩, false)
  let res := acc.1
  if res.status = [] then .error .missingStatus
  else if res.commitMsg = [] then .error .missingCommit
  else if res.status = needsHelpStr ∧ res.escalation = [] then .error .needsEscalation
  else .ok res

/-! ## Orchestrator cross-check (internal/app/app.go `executeSession`, after `Wait`) -/

/-- `normalizeMultiline`: trim the whole text, then trim trailing spaces and
tabs from each line. -/
def normalizeMultiline (s : List Char) : List Char :=
  if trimWs s = [] then []
  else joinNl ((splitOnNl (trimWs s)).map (trimRightCut [' ', '\t']))

/-- `normalizeWhitespace`. -/
def normalizeWhitespaceGo (s : List Char) : List Char := trimWs s

/-- `strings.EqualFold` at the ASCII level. -/
def eqFold (a b : List Char) : Bool := lowerStr a == lowerStr b

inductive SessErr
  | fencedFailed (e : PErr)
  | footerFailed (e : FooterErr)
  | statusDrift
  | detailsDrift
  | escalationDrift
deriving DecidableEq, Repr

/-- The parse-and-cross-check part of `executeSession` between `Wait` and the
ledger append: parse the fenced report, parse the legacy footer, and require
agreement on status (EqualFold), commit body (`normalizeMultiline`) and
escalation (`normalizeWhitespace`). -/
def reconcileSession (sessionID output : List Char) : Except SessErr (FResult × FooterRes) :=
  match parseFencedReport sessionID output with
  | .error e => .error (.fencedFailed e)
  | .ok f =>
    match footerParse output with
    | .error e => .error (.footerFailed e)
    | .ok ft =>
      if eqFold f.status ft.status = false then .error .statusDrift
      else if normalizeMultiline f.details ≠ normalizeMultiline ft.commitMsg then .error .detailsDrift
      else if normalizeWhitespaceGo f.escalation ≠ normalizeWhitespaceGo ft.escalation then
        .error .escalationDrift
      else .ok (f, ft)

/-- The ledger-relevant fields `executeSession` assembles (redacted via
`redactText`). -/
structure SessionEntry where
  status : List Char
  commitSummary : List Char
  commitDetails : List Char
  escalation : List Char
deriving DecidableEq, Repr

/-- `executeSession` reaches `appendLedgerEntry` only when `reconcileSession`
succeeds; any parse or drift error returns before the entry is built. -/
def executeSessionLedger (secrets : List (List Char)) (sessionID output : List Char) :
    Option SessionEntry :=
  match reconcileSession sessionID output with
  | .error _ => none
  | .ok (f, _) =>
    some { status := f.status,
           commitSummary := (redactTextApp secrets f.commitMsg).1,
           commitDetails := (redactTextApp secrets f.details).1,
           escalation := (redactTextApp secrets (trimWs f.escalation)).1 }

/-- The commit-body normalization in the words of the specification claim:
trim trailing whitespace on each line (and nothing else). -/
def claimDetailNormalize (s : List Char) : List Char :=
  joinNl ((splitOnNl s).map trimRightWs)

/-- The agreement the claim describes, for comparison with the code's check. -/
def claimCrossAgrees (f : FResult) (ft : FooterRes) : Bool :=
  eqFold f.status ft.status &&
  (claimDetailNormalize f.details == claimDetailNormalize ft.commitMsg) &&
  (trimWs f.escalation == trimWs ft.escalation)

/-! ## Ledger (internal/app ledger code) -/

/-- `ledgerEntry`, restricted to the fields the claims mention; the omitted
metadata fields are carried through `appendLedgerEntry` unchanged. Timestamps
are nanoseconds with Go's zero `time.Time` at 0. -/
structure LedgerRec where
  schemaVersion : List Char
  sessionID : List Char
  epicID : List Char
  status : List Char
  beadID : List Char
  commitSummary : List Char
  commitDetails : List Char
  escalation : List Char
  startedAt : Int
  completedAt : Int
  durationMs : Int
  exitCode : Int
deriving DecidableEq, Repr

def ledgerSchemaVersionStr : List Char := "obi.v2".data

/-- `durationMillis`: zero timestamps and negative spans clamp to 0, otherwise
`Sub` then `Milliseconds` (Go's saturation of durations beyond ±2⁶³ ns is not
modeled; no claim depends on it). -/
def durationMillis (start endT : Int) : Int :=
  if start = 0 ∨ endT = 0 then 0
  else if endT < start then 0
  else (endT - start) / 1000000

/-- The record `appendLedgerEntry` actually marshals: schema version forced,
text fields trimmed, duration computed. -/
def appendedLedgerRecord (e : LedgerRec) : LedgerRec :=
  { e with schemaVersion := ledgerSchemaVersionStr,
           commitSummary := trimWs e.commitSummary,
           commitDetails := trimWs e.commitDetails,
           escalation := trimWs e.escalation,
           durationMs := durationMillis e.startedAt e.completedAt }

inductive LedgerErr
  | missingStatus (sessionID : List Char)
  | missingBead (sessionID : List Char)
  | needsHelpEntry (sessionID : List Char)
  | unknownStatus (sessionID status : List Char)
deriving DecidableEq, Repr

/-- `ledgerEntriesForEpic` on already-decoded records: keep entries whose
epic id matches case-insensitively, or all of them when the id is blank. -/
def ledgerEntriesForEpic (entries : List LedgerRec) (epicID : List Char) : List LedgerRec :=
  let lowerEpic := lowerStr (trimWs epicID)
  entries.filter (fun e => lowerEpic.isEmpty || eqFold (trimWs e.epicID) lowerEpic)

/-- The loop body of `completedBeadsFromLedger` (`seen` is the dedup map,
`acc` the completed list in first-seen order). -/
def completedBeadsGo (seen : List (List Char)) (acc : List (List Char)) :
    List LedgerRec → Except LedgerErr (List (List Char))
  | [] => .ok acc
  | e :: rest =>
    let status := lowerStr (trimWs e.status)
    if status = [] then .error (.missingStatus e.sessionID)
    else if status = successStr then
      let bead := trimWs e.beadID
      if bead = [] then .error (.missingBead e.sessionID)
      else if seen.contains (lowerStr bead) then completedBeadsGo seen acc rest
      else completedBeadsGo (lowerStr bead :: seen) (acc ++ [bead]) rest
    else if status = needsHelpStr then .error (.needsHelpEntry e.sessionID)
    else .error (.unknownStatus e.sessionID e.status)

/-- `completedBeadsFromLedger`. -/
def completedBeadsFromLedger (entries : List LedgerRec) (epicID : List Char) :
    Except LedgerErr (List (List Char)) :=
  completedBeadsGo [] [] (ledgerEntriesForEpic entries epicID)

/-- Specification function: first-seen case-insensitive dedup. -/
def dedupCIGo (seen : List (List Char)) : List (List Char) → List (List Char)
  | [] => []
  | b :: bs =>
    if seen.contains (lowerStr b) then dedupCIGo seen bs
    else b :: dedupCIGo (lowerStr b :: seen) bs

/-! ## Bead-id detection (internal/app `detectBeadID`) -/

def isUpperASCII (c : Char) : Bool := decide (65 ≤ c.toNat ∧ c.toNat ≤ 90)

def isLowerASCII (c : Char) : Bool := decide (97 ≤ c.toNat ∧ c.toNat ≤ 122)

def isDigitASCII (c : Char) : Bool := decide (48 ≤ c.toNat ∧ c.toNat ≤ 57)

/-- The regexp's `[a-z0-9]` class. -/
def isBeadStart (c : Char) : Bool := isLowerASCII c || isDigitASCII c

/-- The regexp's `[a-z0-9.-]` class. -/
def isBeadCh (c : Char) : Bool := isBeadStart c || c = '.' || c = '-'

/-- Go `strings.LastIndex s "-"` (for a one-character needle). -/
def lastIndexCh (target : Char) (s : List Char) : Option Nat :=
  match s.reverse.findIdx? (fun c => c = target) with
  | none => none
  | some j => some (s.length - 1 - j)

/-- The root computation at the top of `detectBeadID`: lowercase the trimmed
epic id, strip the final `-` segment when the dash is not at position 0, and
fall back to the lowercased id should that leave nothing. -/
def epicRoot (epicID : List Char) : List Char :=
  let root0 := lowerStr (trimWs epicID)
  let root1 :=
    match lastIndexCh '-' root0 with
    | some idx => if 0 < idx then root0.take idx else root0
    | none => root0
  if root1 = [] then lowerStr epicID else root1

/-- Match the regexp `<root>-[a-z0-9][a-z0-9.-]*` anchored at the start of
`s`, greedily (RE2 semantics for this star-only pattern). -/
def tryBead (root s : List Char) : Option (List Char) :=
  match stripPre (root ++ ['-']) s with
  | none => none
  | some rest =>
    match rest with
    | [] => none
    | c :: rest2 =>
      if isBeadStart c then some (root ++ '-' :: c :: rest2.takeWhile isBeadCh)
      else none

/-- Leftmost match of the bead pattern (`regexp.FindString`). -/
def findBead (root : List Char) : List Char → Option (List Char)
  | [] => none
  | c :: rest =>
    match tryBead root (c :: rest) with
    | some m => some m
    | none => findBead root rest

/-- `detectBeadID`'s loop over candidate texts: skip empty texts and return
the first match found in the lowercased text. -/
def findFirstBead (root : List Char) : List (List Char) → List Char
  | [] => []
  | t :: ts =>
    if t = [] then findFirstBead root ts
    else
      match findBead root (lowerStr t) with
      | some m => m
      | none => findFirstBead root ts

/-- `detectBeadID` (the plan contributes only its `EpicID`). -/
def detectBeadID (epicID : List Char) (texts : List (List Char)) : List Char :=
  if trimWs epicID = [] then []
  else findFirstBead (epicRoot epicID) texts

/-! ## Session runner event pipeline (internal/interactive runner code) -/

inductive SessSt
  | starting
  | running
  | stopping
  | exited
deriving DecidableEq, Repr

/-- `SessionEvent`, keeping the fields each event kind actually populates. -/
inductive SEv
  | logChunk (chunk : List Char)
  | stateChange (st : SessSt)
  | exitEv (code : Int) (hasErr : Bool)
deriving DecidableEq, Repr

def eventBufferSize : Nat := 64

/-- `eventEmitter.send`: a non-blocking `select` on the buffered channel; the
event is dropped whenever the buffer is full. The channel is modeled as the
queue of buffered, not-yet-consumed events. -/
def sendLossy (q : List SEv) (e : SEv) : List SEv :=
  if q.length < eventBufferSize then q ++ [e] else q

def sendSeq (q : List SEv) (es : List SEv) : List SEv := es.foldl sendLossy q

/-- The emission sequence of `sessionExecution.finish` (after which the
channel is closed): `Stopping` only on a run error, then `Exited`, then the
single `Exit` event. -/
def finishEmission (hasErr : Bool) (code : Int) : List SEv :=
  (if hasErr then [SEv.stateChange SessSt.stopping] else []) ++
  [SEv.stateChange SessSt.exited, SEv.exitEv code hasErr]

def isExitEv : SEv → Bool
  | SEv.exitEv _ _ => true
  | _ => false

/-- `eventLogWriter.Write`: forward the raw bytes to the live target and emit
them, unredacted, as a `LogChunk` event. -/
def eventLogWrite (p : List Char) : List Char × List SEv :=
  if p = [] then ([], []) else (p, [SEv.logChunk p])

/-- Everything one `streamWriter.Write` produces. -/
structure StreamOut where
  liveOut : List Char
  events : List SEv
  teeOut : List Char
  buf : List Char
deriving DecidableEq, Repr

/-- `streamWriter.Write`: live writer (and event emission) first with the raw
chunk, then redact, append to the cumulative builder, and tee. -/
def streamWrite (secrets : List (List Char)) (buf : List Char) (p : List Char) : StreamOut :=
  if p = [] then { liveOut := [], events := [], teeOut := [], buf := buf }
  else
    let live := eventLogWrite p
    let redacted := secretRedact secrets p
    { liveOut := live.1, events := live.2, teeOut := redacted, buf := buf ++ redacted }

/-! ## Exit semantics (internal/interactive `startWait` / `finish`) -/

/-- Outcome of `handle.wait()`: clean, an `ExitCode()`-bearing error, or any
other error. -/
inductive WaitRes
  | noErr
  | exitErr (code : Int)
  | otherErr
deriving DecidableEq, Repr

/-- Outcome of the `io.Copy` goroutine: clean, `io.EOF`, `os.ErrClosed`, or
any other error. -/
inductive CopyRes
  | noErr
  | eofErr
  | closedErr
  | otherErr
deriving DecidableEq, Repr

/-- `sessionExecution.finish`: synthesize exit code 1 when a run error is
recorded against an exit code of 0. Returns (result exit code, Wait errs?). -/
def finishResult (code : Int) (hasErr : Bool) : Int × Bool :=
  (if hasErr = true ∧ code = 0 then 1 else code, hasErr)

/-- The decision logic of `startWait`'s goroutine: a stream error other than
EOF/closed fails the run before `waitErr` is inspected; otherwise an
exit-code-bearing wait error records the code and succeeds, any other wait
error fails the run. -/
def startWaitOutcome (w : WaitRes) (s : CopyRes) : Int × Bool :=
  if s = CopyRes.otherErr then finishResult 0 true
  else
    match w with
    | .exitErr c => finishResult c false
    | .otherErr => finishResult 0 true
    | .noErr => finishResult 0 false

/-! ## Chunk-boundary predicate for the split-invariance analysis -/

/-- True when no chunk boundary separates the `'\r'` and `'\n'` of a CRLF
pair: at every split point, the concatenated prefix must not end in `'\r'`
while the concatenated suffix starts with `'\n'`. `pre` accumulates the
already-seen prefix. -/
def splitsOkFrom (pre : List Char) : List (List Char) → Bool
  | [] => true
  | c :: cs =>
    !(pre.getLast? == some '\r' && ((c :: cs).flatten.head? == some '\n')) &&
    splitsOkFrom (pre ++ c) cs

def splitsOk (chunks : List (List Char)) : Bool := splitsOkFrom [] chunks

/-- The text transformation both redactors perform: replace each pattern in
order by the placeholder. -/
def redactFold (pats : List (List Char)) (t : List Char) : List Char :=
  pats.foldl (fun out sec => replaceAll sec redactedPlaceholder out) t


/-! ## Facts about `stripPre`, `containsSub` and `replaceAll` -/

/-! ### Small sanity checks for the helpers -/

example : trimWs [' ', 'a', ' '] = ['a'] := by decide

example : replaceAll ['a', 'b'] ['X'] ['a', 'b', 'c', 'a', 'b'] = ['X', 'c', 'X'] := by decide

example : splitOnNl ['a', '\n', 'b'] = [['a'], ['b']] := by decide

example : containsSub ['b', 'c'] ['a', 'b', 'c'] = true := by decide

theorem stripPre_eq_some {pat s t : List Char} :
    stripPre pat s = some t ↔ s = pat ++ t := by
  induction pat generalizing s with
  | nil =>
    simp [stripPre]
  | cons p ps ih =>
    cases s with
    | nil => simp [stripPre]
    | cons c cs =>
      by_cases hpc : p = c
      · subst hpc
        simp [stripPre, ih]
      · simp [stripPre, hpc]
        intro h
        exact fun _ => hpc h.symm

theorem stripPre_isSome {pat s : List Char} :
    (stripPre pat s).isSome = true ↔ pat <+: s := by
  constructor
  · intro h
    rcases Option.isSome_iff_exists.mp h with ⟨t, ht⟩
    exact ⟨t, (stripPre_eq_some.mp ht).symm⟩
  · rintro ⟨t, ht⟩
    rw [stripPre_eq_some.mpr ht.symm]
    rfl

theorem stripPre_none {pat s : List Char} :
    stripPre pat s = none ↔ ¬ pat <+: s := by
  rw [← stripPre_isSome]
  cases h : stripPre pat s <;> simp

theorem stripPre_some_length {pat s t : List Char} (h : stripPre pat s = some t) :
    t.length + pat.length = s.length := by
  rw [stripPre_eq_some.mp h]
  simp [List.length_append]
  omega

theorem containsSub_infix_iff {pat s : List Char} :
    containsSub pat s = true ↔ pat <:+: s := by
  induction s with
  | nil =>
    simp only [containsSub]
    rw [stripPre_isSome]
    constructor
    · exact fun h => h.isInfix
    · intro h
      rcases h with ⟨a, b, hab⟩
      have : a = [] ∧ pat ++ b = [] := by
        cases a <;> simp_all
      rcases this with ⟨_, h2⟩
      have : pat = [] := by cases pat <;> simp_all
      simp [this]
  | cons c rest ih =>
    simp only [containsSub, Bool.or_eq_true]
    rw [stripPre_isSome, ih, List.infix_cons_iff]

theorem replaceAux_congr (pat rep : List Char) (hp : pat ≠ []) :
    ∀ f1 f2 s, s.length ≤ f1 → s.length ≤ f2 →
      replaceAux pat rep f1 s = replaceAux pat rep f2 s := by
  intro f1
  induction f1 using Nat.strong_induction_on with
  | _ f1 ih =>
    intro f2 s h1 h2
    match f1, f2, s with
    | a, b, [] => cases a <;> cases b <;> rfl
    | 0, _, c :: rest => simp at h1
    | _ + 1, 0, c :: rest => simp at h2
    | g1 + 1, g2 + 1, c :: rest =>
      have h1' : rest.length ≤ g1 := by simpa using h1
      have h2' : rest.length ≤ g2 := by simpa using h2
      simp only [replaceAux]
      cases hs : stripPre pat (c :: rest) with
      | some s2 =>
        have hlen := stripPre_some_length hs
        have hplen : 1 ≤ pat.length := by
          cases pat with
          | nil => exact absurd rfl hp
          | cons _ _ => simp
        have hs2 : s2.length ≤ rest.length := by
          simp only [List.length_cons] at hlen
          omega
        show rep ++ replaceAux pat rep g1 s2 = rep ++ replaceAux pat rep g2 s2
        rw [ih g1 (by omega) g2 s2 (by omega) (by omega)]
      | none =>
        show c :: replaceAux pat rep g1 rest = c :: replaceAux pat rep g2 rest
        rw [ih g1 (by omega) g2 rest (by omega) (by omega)]

theorem replaceAll_nil (pat rep : List Char) : replaceAll pat rep [] = [] := by
  by_cases h : pat = [] <;> simp [replaceAll, h, replaceAux]

theorem replaceAll_cons_match {pat rep : List Char} (hp : pat ≠ []) {c : Char}
    {rest s2 : List Char} (h : stripPre pat (c :: rest) = some s2) :
    replaceAll pat rep (c :: rest) = rep ++ replaceAll pat rep s2 := by
  have hlen := stripPre_some_length h
  have hplen : 1 ≤ pat.length := by
    cases pat with
    | nil => exact absurd rfl hp
    | cons _ _ => simp
  have hs2 : s2.length ≤ rest.length := by
    simp only [List.length_cons] at hlen
    omega
  simp only [replaceAll, if_neg hp]
  rw [show (c :: rest).length = rest.length + 1 by simp, replaceAux, h]
  show rep ++ replaceAux pat rep rest.length s2 = rep ++ replaceAux pat rep s2.length s2
  congr 1
  exact replaceAux_congr pat rep hp rest.length s2.length s2 hs2 le_rfl

theorem replaceAll_cons_nomatch {pat rep : List Char} (hp : pat ≠ []) {c : Char}
    {rest : List Char} (h : stripPre pat (c :: rest) = none) :
    replaceAll pat rep (c :: rest) = c :: replaceAll pat rep rest := by
  simp only [replaceAll, if_neg hp]
  rw [show (c :: rest).length = rest.length + 1 by simp, replaceAux, h]

/-! ### Model validation against the package's own test cases -/

-- TestParserParsesFencedReport
example :
    runChunks "session-42".data
      ["booting...\nnoise\n".data,
       "```obi:session-42\nstatus: success\ncommit_msg: Ship feature\n".data,
       "details: |\n  Added foo\n  Step 2: verify\n".data,
       "```\n".data] =
    Except.ok ⟨"session-42".data, "success".data, "Ship feature".data,
               "Added foo\nStep 2: verify".data, []⟩ := by decide

-- TestParserHandlesInlineDetails
example :
    runChunks "abc".data ["```obi:abc\nstatus: success\ncommit_msg: hey\ndetails: All done\n```\n".data] =
    Except.ok ⟨"abc".data, "success".data, "hey".data, "All done".data, []⟩ := by decide

-- TestParserRequiresClosingFence
example :
    runChunks "abc".data ["```obi:abc\nstatus: success\ncommit_msg: done\ndetails: |\n  hi\n".data] =
    Except.error PErr.reportDidNotClose := by decide

-- TestParserRequiresMatchingSessionID
example :
    runChunks "session-1".data ["```obi:other\n".data] =
    Except.error (PErr.fenceSessionMismatch "other".data "session-1".data) := by decide

-- TestParserNeedsEscalationWhenFailure
example :
    runChunks "abc".data ["```obi:abc\nstatus: needs_help\ncommit_msg: blocked\ndetails: |\n  waiting\n```\n".data] =
    Except.error PErr.needsHelpRequiresEscalation := by decide

-- TestParserNeedsHelpSuccessPath
example :
    runChunks "needs-help".data ["```obi:needs-help\nstatus: needs_help\ncommit_msg: Blocked\ndetails: |\n  waiting\nescalation: approval needed\n```\n".data] =
    Except.ok ⟨"needs-help".data, "needs_help".data, "Blocked".data, "waiting".data,
               "approval needed".data⟩ := by decide

-- TestParserHandlesStreamingChunksWithNoise
example :
    runChunks "session-100".data
      ["\nrandom\nPREFIX\n```obi:session".data, "-100\nstatus:".data,
       " success\ncommit_msg: Chunked input\ndetails: |\n".data,
       "  first line\n  second line\n".data, "```\n".data] =
    Except.ok ⟨"session-100".data, "success".data, "Chunked input".data,
               "first line\nsecond line".data, []⟩ := by decide

-- TestParseSuccess (footer)
example :
    footerParse "something\nSTATUS: success\nCOMMIT_MSG:\nfix stuff".data =
    Except.ok ⟨"success".data, "fix stuff".data, []⟩ := by decide

-- TestParseNeedsEscalation (footer)
example :
    (footerParse "STATUS: needs_help\nCOMMIT_MSG:\nwip\nESCALATION: wait for approval".data).isOk = true := by
  decide

-- TestParseMissingFields (footer)
example : footerParse "STATUS: success".data = Except.error FooterErr.missingCommit := by decide

-- TestSecretRedactorHandlesOverlappingSecrets
example :
    secretRedact ["abc".data, "abcd".data] "abcd abc".data =
    "[REDACTED]d [REDACTED]".data := by decide

-- TestDetectBeadID
example :
    detectBeadID "automatic-octo-barnacle-d4c".data
      ["Worked on bead automatic-octo-barnacle-kmn for logging.".data] =
    "automatic-octo-barnacle-kmn".data := by decide

example : detectBeadID "automatic-octo-barnacle-d4c".data ["no match".data] = [] := by decide

/-! ## Occurrence lemmas for `replaceAll` (toward redaction idempotence) -/

theorem replaceAll_of_not_infix {pat rep s : List Char} (hp : pat ≠ [])
    (h : ¬ pat <:+: s) : replaceAll pat rep s = s := by
  induction s with
  | nil => exact replaceAll_nil pat rep
  | cons c rest ih =>
    cases hs : stripPre pat (c :: rest) with
    | some s2 =>
      exact absurd ((stripPre_isSome.mp (by simp [hs])).isInfix) h
    | none =>
      rw [replaceAll_cons_nomatch hp hs]
      rw [ih (fun hin => h (List.infix_cons hin))]

theorem infix_of_infix_append_left {q rep t : List Char}
    (hq : q ≠ []) (hch : ∀ c ∈ q, c ∉ rep) (h : q <:+: rep ++ t) : q <:+: t := by
  induction rep with
  | nil => simpa using h
  | cons r rep' ih =>
    rw [List.cons_append, List.infix_cons_iff] at h
    cases h with
    | inl hpre =>
      cases q with
      | nil => exact absurd rfl hq
      | cons a q' =>
        rcases (List.cons_prefix_cons.mp hpre) with ⟨rfl, -⟩
        exact absurd (List.mem_cons_self a rep') (hch a (List.mem_cons_self a q'))
    | inr hinf =>
      exact ih (fun c hc => fun hmem => hch c hc (List.mem_cons_of_mem r hmem)) hinf

theorem prefix_through_replaceAll {pat rep s q : List Char} (hp : pat ≠ [])
    (hr : rep ≠ []) (hch : ∀ c ∈ q, c ∉ rep)
    (h : q <+: replaceAll pat rep s) : q <+: s := by
  induction s generalizing q with
  | nil =>
    rw [replaceAll_nil] at h
    simpa using h
  | cons c rest ih =>
    cases hs : stripPre pat (c :: rest) with
    | some s2 =>
      rw [replaceAll_cons_match hp hs] at h
      cases q with
      | nil => exact List.nil_prefix
      | cons a q' =>
        cases rep with
        | nil => exact absurd rfl hr
        | cons r rep' =>
          rcases (List.cons_prefix_cons.mp h) with ⟨rfl, -⟩
          exact absurd (List.mem_cons_self a rep')
            (hch a (List.mem_cons_self a q'))
    | none =>
      rw [replaceAll_cons_nomatch hp hs] at h
      cases q with
      | nil => exact List.nil_prefix
      | cons a q' =>
        rcases (List.cons_prefix_cons.mp h) with ⟨rfl, hq'⟩
        exact List.cons_prefix_cons.mpr
          ⟨rfl, ih (fun x hx => hch x (List.mem_cons_of_mem a hx)) hq'⟩

theorem infix_through_replaceAll_fuel {pat rep : List Char} (hp : pat ≠ []) (hr : rep ≠ []) :
    ∀ fuel (s q : List Char), s.length ≤ fuel → (∀ c ∈ q, c ∉ rep) →
      q <:+: replaceAll pat rep s → q <:+: s := by
  intro fuel
  induction fuel with
  | zero =>
    intro s q hlen hch h
    have hs : s = [] := List.eq_nil_of_length_eq_zero (Nat.le_zero.mp hlen)
    subst hs
    rw [replaceAll_nil] at h
    simpa using h
  | succ n ih =>
    intro s q hlen hch h
    cases s with
    | nil =>
      rw [replaceAll_nil] at h
      simpa using h
    | cons c rest =>
      cases hs : stripPre pat (c :: rest) with
      | some s2 =>
        rw [replaceAll_cons_match hp hs] at h
        by_cases hq : q = []
        · subst hq
          exact List.nil_prefix.isInfix
        · have h2 : q <:+: replaceAll pat rep s2 := infix_of_infix_append_left hq hch h
          have hple : 1 ≤ pat.length := by
            cases pat with
            | nil => exact absurd rfl hp
            | cons _ _ => simp
          have hlen2 : s2.length ≤ n := by
            have hsl := stripPre_some_length hs
            simp only [List.length_cons] at hsl hlen
            omega
          have h3 := ih s2 q hlen2 hch h2
          have hsfx : s2 <:+ (c :: rest) := ⟨pat, (stripPre_eq_some.mp hs).symm⟩
          exact h3.trans hsfx.isInfix
      | none =>
        rw [replaceAll_cons_nomatch hp hs] at h
        rw [List.infix_cons_iff] at h
        cases h with
        | inl hpre =>
          cases q with
          | nil => exact List.nil_prefix.isInfix
          | cons a q' =>
            rcases List.cons_prefix_cons.mp hpre with ⟨rfl, hq'⟩
            have hpr := prefix_through_replaceAll hp hr
              (fun x hx => hch x (List.mem_cons_of_mem a hx)) hq'
            exact (List.cons_prefix_cons.mpr ⟨rfl, hpr⟩).isInfix
        | inr hinf =>
          have hlen2 : rest.length ≤ n := by
            simp only [List.length_cons] at hlen
            omega
          exact List.infix_cons (ih rest q hlen2 hch hinf)

theorem infix_through_replaceAll {pat rep s q : List Char} (hp : pat ≠ [])
    (hr : rep ≠ []) (hch : ∀ c ∈ q, c ∉ rep)
    (h : q <:+: replaceAll pat rep s) : q <:+: s :=
  infix_through_replaceAll_fuel hp hr s.length s q le_rfl hch h

theorem self_free_after_replaceAll_fuel {pat rep : List Char} (hp : pat ≠ []) (hr : rep ≠ [])
    (hch : ∀ c ∈ pat, c ∉ rep) :
    ∀ fuel (s : List Char), s.length ≤ fuel → ¬ pat <:+: replaceAll pat rep s := by
  intro fuel
  induction fuel with
  | zero =>
    intro s hlen h
    have hs : s = [] := List.eq_nil_of_length_eq_zero (Nat.le_zero.mp hlen)
    subst hs
    rw [replaceAll_nil] at h
    exact hp (List.eq_nil_of_infix_nil h)
  | succ n ih =>
    intro s hlen h
    cases s with
    | nil =>
      rw [replaceAll_nil] at h
      exact hp (List.eq_nil_of_infix_nil h)
    | cons c rest =>
      cases hs : stripPre pat (c :: rest) with
      | some s2 =>
        rw [replaceAll_cons_match hp hs] at h
        have h2 : pat <:+: replaceAll pat rep s2 := infix_of_infix_append_left hp hch h
        have hple : 1 ≤ pat.length := by
          cases pat with
          | nil => exact absurd rfl hp
          | cons _ _ => simp
        have hlen2 : s2.length ≤ n := by
          have hsl := stripPre_some_length hs
          simp only [List.length_cons] at hsl hlen
          omega
        exact ih s2 hlen2 h2
      | none =>
        rw [replaceAll_cons_nomatch hp hs] at h
        rw [List.infix_cons_iff] at h
        cases h with
        | inl hpre =>
          cases pat with
          | nil => exact hp rfl
          | cons a pat' =>
            rcases List.cons_prefix_cons.mp hpre with ⟨rfl, hq'⟩
            have hpr := prefix_through_replaceAll hp hr
              (fun x hx => hch x (List.mem_cons_of_mem a hx)) hq'
            exact (stripPre_none.mp hs) (List.cons_prefix_cons.mpr ⟨rfl, hpr⟩)
        | inr hinf =>
          have hlen2 : rest.length ≤ n := by
            simp only [List.length_cons] at hlen
            omega
          exact ih rest hlen2 hinf

theorem self_free_after_replaceAll {pat rep s : List Char} (hp : pat ≠ []) (hr : rep ≠ [])
    (hch : ∀ c ∈ pat, c ∉ rep) : ¬ pat <:+: replaceAll pat rep s :=
  self_free_after_replaceAll_fuel hp hr hch s.length s le_rfl

/-! ## Redaction idempotence -/

theorem redactFold_no_occurrence {pats : List (List Char)} {t q : List Char}
    (hgood : ∀ s ∈ pats, s ≠ [] ∧ ∀ c ∈ s, c ∉ redactedPlaceholder)
    (hq : q ≠ []) (hqch : ∀ c ∈ q, c ∉ redactedPlaceholder)
    (h : ¬ q <:+: t) : ¬ q <:+: redactFold pats t := by
  induction pats generalizing t with
  | nil => exact h
  | cons p ps ih =>
    rw [redactFold, List.foldl_cons]
    refine ih (fun s hs => hgood s (List.mem_cons_of_mem p hs)) ?_
    intro hin
    rcases hgood p (List.mem_cons_self p ps) with ⟨hp, -⟩
    exact h (infix_through_replaceAll hp (by decide) hqch hin)

theorem redactFold_kills_pattern {pats : List (List Char)} {t q : List Char}
    (hgood : ∀ s ∈ pats, s ≠ [] ∧ ∀ c ∈ s, c ∉ redactedPlaceholder)
    (hq : q ∈ pats) : ¬ q <:+: redactFold pats t := by
  induction pats generalizing t with
  | nil => cases hq
  | cons p ps ih =>
    rw [redactFold, List.foldl_cons]
    rcases List.mem_cons.mp hq with rfl | hq'
    · rcases hgood q (List.mem_cons_self q ps) with ⟨hqn, hqch⟩
      by_cases hmem : q ∈ ps
      · exact ih (fun s hs => hgood s (List.mem_cons_of_mem q hs)) hmem
      · exact redactFold_no_occurrence (fun s hs => hgood s (List.mem_cons_of_mem q hs))
          hqn hqch (self_free_after_replaceAll hqn (by decide) hqch)
    · exact ih (fun s hs => hgood s (List.mem_cons_of_mem p hs)) hq'

theorem redactFold_fixed {pats : List (List Char)} {u : List Char}
    (hne : ∀ s ∈ pats, s ≠ []) (h : ∀ s ∈ pats, ¬ s <:+: u) :
    redactFold pats u = u := by
  induction pats with
  | nil => rfl
  | cons p ps ih =>
    rw [redactFold, List.foldl_cons,
        replaceAll_of_not_infix (hne p (List.mem_cons_self p ps)) (h p (List.mem_cons_self p ps))]
    exact ih (fun s hs => hne s (List.mem_cons_of_mem p hs))
      (fun s hs => h s (List.mem_cons_of_mem p hs))

theorem redactFold_idem {pats : List (List Char)} {t : List Char}
    (hgood : ∀ s ∈ pats, s ≠ [] ∧ ∀ c ∈ s, c ∉ redactedPlaceholder) :
    redactFold pats (redactFold pats t) = redactFold pats t :=
  redactFold_fixed (fun s hs => (hgood s hs).1)
    (fun s hs => redactFold_kills_pattern hgood hs)

theorem trimWs_sublist (s : List Char) : (trimWs s).Sublist s := by
  have h1 : (trimLeftWs s).Sublist s := List.dropWhile_sublist _
  have h2 : (trimRightWs (trimLeftWs s)).Sublist (trimLeftWs s) := by
    have := List.dropWhile_sublist (l := (trimLeftWs s).reverse) isSpaceCh
    have := this.reverse
    simpa [trimRightWs] using this
  exact h2.trans h1

theorem secretRedact_eq_redactFold (secrets : List (List Char)) (x : List Char) :
    secretRedact secrets x = redactFold (secrets.filter (fun s => !(trimWs s).isEmpty)) x := rfl

theorem redactTextGo_fst (ss : List (List Char)) :
    ∀ (u : List Char) (b : Bool),
      (redactTextGo ss (u, b)).1 =
        redactFold ((ss.map trimWs).filter (fun s => !s.isEmpty)) u := by
  induction ss with
  | nil => intro u b; rfl
  | cons s0 rest ih =>
    intro u b
    by_cases h0 : trimWs s0 = []
    · rw [show redactTextGo (s0 :: rest) (u, b) = redactTextGo rest (u, b) by
        simp [redactTextGo, h0]]
      rw [ih u b]
      congr 1
      simp [h0]
    · have hfilter :
          ((s0 :: rest).map trimWs).filter (fun s => !s.isEmpty) =
            trimWs s0 :: ((rest.map trimWs).filter (fun s => !s.isEmpty)) := by
        simp only [List.map_cons, List.filter_cons]
        rw [if_pos (by simp [h0])]
      rw [hfilter]
      by_cases hc : containsSub (trimWs s0) u = true
      · rw [show redactTextGo (s0 :: rest) (u, b) =
            redactTextGo rest (replaceAll (trimWs s0) redactedPlaceholder u, true) by
          simp [redactTextGo, h0, hc]]
        rw [ih]
        rfl
      · have hfix : replaceAll (trimWs s0) redactedPlaceholder u = u := by
          refine replaceAll_of_not_infix h0 ?_
          intro hin
          exact hc (containsSub_infix_iff.mpr hin)
        rw [show redactTextGo (s0 :: rest) (u, b) = redactTextGo rest (u, b) by
          simp [redactTextGo, h0, hc]]
        rw [ih u b]
        show redactFold _ u = redactFold _ u
        rw [redactFold, redactFold, List.foldl_cons, hfix]

theorem redactTextApp_fst (ss : List (List Char)) (u : List Char) :
    (redactTextApp ss u).1 = redactFold ((ss.map trimWs).filter (fun s => !s.isEmpty)) u := by
  cases ss with
  | nil => rfl
  | cons s0 rest =>
    rw [redactTextApp, if_neg (by simp)]
    exact redactTextGo_fst (s0 :: rest) u false

/-- C4 counterexample: the secret `RED` occurs again inside the inserted
placeholder `[REDACTED]`, so a second redaction pass changes the text. -/
theorem redact_idempotence_counterexample :
    secretRedact ["RED".data] (secretRedact ["RED".data] "RED".data) ≠
      secretRedact ["RED".data] "RED".data := by decide

/-- C4 (amended): for any secret set of non-empty strings none of which
shares a character with the placeholder `[REDACTED]`, both redaction
functions are idempotent: `redact (redact T S) S = redact T S`. -/
theorem redact_idempotent_when_secrets_avoid_placeholder
    (secrets : List (List Char)) (t : List Char)
    (h : ∀ s ∈ secrets, ∀ c ∈ s, c ∉ redactedPlaceholder) :
    secretRedact secrets (secretRedact secrets t) = secretRedact secrets t ∧
    (redactTextApp secrets (redactTextApp secrets t).1).1 = (redactTextApp secrets t).1 := by
  constructor
  · simp only [secretRedact_eq_redactFold]
    refine redactFold_idem ?_
    intro s hs
    have hmem := List.mem_of_mem_filter hs
    have hprop := List.of_mem_filter hs
    refine ⟨?_, h s hmem⟩
    intro hnil
    subst hnil
    simp [trimWs, trimLeftWs, trimRightWs] at hprop
  · simp only [redactTextApp_fst]
    refine redactFold_idem ?_
    intro s hs
    have hmem := List.mem_of_mem_filter hs
    have hprop := List.of_mem_filter hs
    rcases List.mem_map.mp hmem with ⟨s0, hs0, rfl⟩
    refine ⟨by simpa using hprop, ?_⟩
    intro c hc
    exact h s0 hs0 c ((trimWs_sublist s0).mem hc)

/-- C4 witness: a concrete placeholder-free secret set where the theorem
applies. -/
theorem redact_idempotent_witness :
    (∀ s ∈ ["xy".data, "zq".data], ∀ c ∈ s, c ∉ redactedPlaceholder) ∧
    secretRedact ["xy".data, "zq".data]
        (secretRedact ["xy".data, "zq".data] "wxyzq xy".data) =
      secretRedact ["xy".data, "zq".data] "wxyzq xy".data := by
  refine ⟨by decide, ?_⟩
  exact (redact_idempotent_when_secrets_avoid_placeholder _ _ (by decide)).1

/-! ## C2: validation at fence close and at end of stream -/

/-- C2: when the fenced report closes — via the literal closing fence or the
end-of-stream `Finalize` — the parser errors unless `session_id`, `status`,
`commit_msg` and `details` are all present, and, for status `needs_help`,
`escalation` is non-empty after trimming; end-of-stream while still inside
the body yields the incomplete-report error, and end-of-stream while still
seeking the opening fence yields the not-found error. -/
theorem fenced_close_validation :
    (∀ r : FResult,
      validateResult r = Except.ok () ↔
        (r.sessionID ≠ [] ∧ r.status ≠ [] ∧ r.commitMsg ≠ [] ∧ r.details ≠ [] ∧
         (r.status = needsHelpStr → trimWs r.escalation ≠ []))) ∧
    (∀ c : FCore, c.state = PState.inBody → c.collecting = false →
      handleLine c fenceMark =
        match validateResult c.res with
        | .ok _ => .ok { c with collecting := false, done := true, state := .finished }
        | .error e => .error e) ∧
    (∀ p : FParser, p.core.done = false → p.hold = [] → p.core.state = PState.seeking →
      finalizeF p = .error .reportNotFound) ∧
    (∀ p : FParser, p.core.done = false → p.hold = [] → p.core.state = PState.inBody →
      finalizeF p = .error .reportDidNotClose) := by
  refine ⟨?_, ?_, ?_, ?_⟩
  · intro r
    unfold validateResult
    by_cases h1 : r.sessionID = [] <;> by_cases h2 : r.status = [] <;>
      by_cases h3 : r.commitMsg = [] <;> by_cases h4 : r.details = [] <;>
      by_cases h5 : r.status = needsHelpStr ∧ trimWs r.escalation = [] <;>
      simp_all <;> tauto
  · intro c hs hc
    cases hv : validateResult c.res with
    | ok u =>
      cases u
      simp [handleLine, hs, hc, hv, show trimWs fenceMark = fenceMark from by decide]
    | error e =>
      simp [handleLine, hs, hc, hv, show trimWs fenceMark = fenceMark from by decide]
  · intro p hdone hhold hstate
    simp [finalizeF, hdone, hhold, hstate]
  · intro p hdone hhold hstate
    simp [finalizeF, hdone, hhold, hstate]

/-- C2 witness: both directions at concrete inputs. -/
theorem fenced_close_validation_witness :
    validateResult ⟨"s".data, successStr, "m".data, "d".data, []⟩ = Except.ok () ∧
    finalizeF (newParser "s".data) = Except.error PErr.reportNotFound := by
  have h := fenced_close_validation
  exact ⟨(h.1 _).mpr (by decide), h.2.2.1 _ (by decide) (by decide) (by decide)⟩

/-! ## C3: chunk-split invariance machinery -/

theorem pass2_cons (c : Char) (t : List Char) :
    replaceAll ['\r'] ['\n'] (c :: t) =
      (if c = '\r' then '\n' else c) :: replaceAll ['\r'] ['\n'] t := by
  by_cases hc : c = '\r'
  · subst hc
    rw [replaceAll_cons_match (by simp) (show stripPre ['\r'] ('\r' :: t) = some t by
      simp [stripPre])]
    simp
  · rw [replaceAll_cons_nomatch (by simp) (show stripPre ['\r'] (c :: t) = none by
      simp [stripPre, Ne.symm hc])]
    simp [hc]

theorem pass1_cons_crlf (t : List Char) :
    replaceAll "\r\n".data ['\n'] ('\r' :: '\n' :: t) =
      '\n' :: replaceAll "\r\n".data ['\n'] t := by
  rw [replaceAll_cons_match (by decide)
    (show stripPre "\r\n".data ('\r' :: '\n' :: t) = some t by simp [stripPre])]
  simp

theorem pass1_cons_other {c : Char} {t : List Char}
    (h : ¬(c = '\r' ∧ t.head? = some '\n')) :
    replaceAll "\r\n".data ['\n'] (c :: t) = c :: replaceAll "\r\n".data ['\n'] t := by
  refine replaceAll_cons_nomatch (by decide) ?_
  rw [stripPre_none]
  rintro ⟨u, hu⟩
  have hu' : '\r' :: '\n' :: u = c :: t := hu
  injection hu' with h1 h2
  refine h ⟨h1.symm, ?_⟩
  rw [← h2]
  rfl

theorem normalizeGo_nil : normalizeGo [] = [] := by
  rw [normalizeGo, replaceAll_nil, replaceAll_nil]

theorem normalizeGo_eq_chunk : ∀ fuel (s : List Char), s.length ≤ fuel →
    normalizeGo s = normalizeChunk s := by
  intro fuel
  induction fuel with
  | zero =>
    intro s hlen
    have hs : s = [] := List.eq_nil_of_length_eq_zero (Nat.le_zero.mp hlen)
    subst hs
    rw [normalizeGo_nil]
    rfl
  | succ n ih =>
    intro s hlen
    match s with
    | [] =>
      rw [normalizeGo_nil]
      rfl
    | [c] =>
      by_cases hc : c = '\r'
      · subst hc
        decide
      · rw [normalizeGo, pass1_cons_other (by simp [hc]), replaceAll_nil, pass2_cons,
          replaceAll_nil, if_neg hc]
        simp [normalizeChunk, hc]
    | c1 :: c2 :: t =>
      have hlt : (c2 :: t).length ≤ n := by
        simp only [List.length_cons] at hlen ⊢
        omega
      have htt : t.length ≤ n := by
        simp only [List.length_cons] at hlen ⊢
        omega
      by_cases h1 : c1 = '\r'
      · subst h1
        by_cases h2 : c2 = '\n'
        · subst h2
          have e1 : normalizeGo ('\r' :: '\n' :: t) = '\n' :: normalizeGo t := by
            rw [normalizeGo, pass1_cons_crlf, pass2_cons,
              if_neg (show ¬(('\n' : Char) = '\r') by decide)]
            rfl
          rw [e1, ih t htt]
          simp [normalizeChunk]
        · have e1 : normalizeGo ('\r' :: c2 :: t) = '\n' :: normalizeGo (c2 :: t) := by
            rw [normalizeGo, pass1_cons_other (by simp [h2]), pass2_cons, if_pos rfl]
            rfl
          rw [e1, ih (c2 :: t) hlt]
          simp [normalizeChunk, h2]
      · have e1 : normalizeGo (c1 :: c2 :: t) = c1 :: normalizeGo (c2 :: t) := by
          rw [normalizeGo, pass1_cons_other (by simp [h1]), pass2_cons, if_neg h1]
          rfl
        rw [e1, ih (c2 :: t) hlt]
        simp [normalizeChunk, h1]

theorem normalizeGo_eq (s : List Char) : normalizeGo s = normalizeChunk s :=
  normalizeGo_eq_chunk s.length s le_rfl

theorem normalizeChunk_append_fuel : ∀ fuel (a b : List Char), a.length ≤ fuel →
    ¬(a.getLast? = some '\r' ∧ b.head? = some '\n') →
    normalizeChunk (a ++ b) = normalizeChunk a ++ normalizeChunk b := by
  intro fuel
  induction fuel with
  | zero =>
    intro a b hlen _
    have ha : a = [] := List.eq_nil_of_length_eq_zero (Nat.le_zero.mp hlen)
    subst ha
    simp [normalizeChunk]
  | succ n ih =>
    intro a b hlen hb
    match a with
    | [] => simp [normalizeChunk]
    | [c] =>
      cases b with
      | nil => simp [normalizeChunk]
      | cons d b2 =>
        by_cases hc : c = '\r'
        · subst hc
          have hd : ¬ d = '\n' := by
            intro hd
            exact hb (by simp [hd])
          show normalizeChunk ('\r' :: d :: b2) = normalizeChunk ['\r'] ++ normalizeChunk (d :: b2)
          simp [normalizeChunk, hd]
        · show normalizeChunk (c :: d :: b2) = normalizeChunk [c] ++ normalizeChunk (d :: b2)
          simp [normalizeChunk, hc]
    | c1 :: c2 :: t =>
      have hlast : (c1 :: c2 :: t).getLast? = (c2 :: t).getLast? := by
        rw [List.getLast?_cons_cons]
      have hlt : (c2 :: t).length ≤ n := by
        simp only [List.length_cons] at hlen ⊢
        omega
      have htt : t.length ≤ n := by
        simp only [List.length_cons] at hlen ⊢
        omega
      have hbt : ¬((c2 :: t).getLast? = some '\r' ∧ b.head? = some '\n') := by
        rw [← hlast]
        exact hb
      by_cases h1 : c1 = '\r'
      · subst h1
        by_cases h2 : c2 = '\n'
        · subst h2
          have hbtt : ¬(t.getLast? = some '\r' ∧ b.head? = some '\n') := by
            cases t with
            | nil => simp
            | cons x xs =>
              rw [show ('\r' :: '\n' :: x :: xs).getLast? = (x :: xs).getLast? by
                rw [List.getLast?_cons_cons, List.getLast?_cons_cons]] at hb
              exact hb
          show normalizeChunk ('\r' :: '\n' :: (t ++ b)) =
            normalizeChunk ('\r' :: '\n' :: t) ++ normalizeChunk b
          rw [show normalizeChunk ('\r' :: '\n' :: (t ++ b)) = '\n' :: normalizeChunk (t ++ b)
              from by simp [normalizeChunk]]
          rw [show normalizeChunk ('\r' :: '\n' :: t) = '\n' :: normalizeChunk t
              from by simp [normalizeChunk]]
          rw [ih t b htt hbtt]
          rfl
        · show normalizeChunk ('\r' :: ((c2 :: t) ++ b)) =
            normalizeChunk ('\r' :: c2 :: t) ++ normalizeChunk b
          rw [show ('\r' :: ((c2 :: t) ++ b)) = ('\r' :: c2 :: (t ++ b)) from rfl]
          rw [show normalizeChunk ('\r' :: c2 :: (t ++ b)) = '\n' :: normalizeChunk (c2 :: (t ++ b))
              from by simp [normalizeChunk, h2]]
          rw [show normalizeChunk ('\r' :: c2 :: t) = '\n' :: normalizeChunk (c2 :: t)
              from by simp [normalizeChunk, h2]]
          rw [show (c2 :: (t ++ b)) = ((c2 :: t) ++ b) from rfl]
          rw [ih (c2 :: t) b hlt hbt]
          rfl
      · show normalizeChunk (c1 :: ((c2 :: t) ++ b)) =
          normalizeChunk (c1 :: c2 :: t) ++ normalizeChunk b
        rw [show (c1 :: ((c2 :: t) ++ b)) = (c1 :: c2 :: (t ++ b)) from rfl]
        rw [show normalizeChunk (c1 :: c2 :: (t ++ b)) = c1 :: normalizeChunk (c2 :: (t ++ b))
            from by simp [normalizeChunk, h1]]
        rw [show normalizeChunk (c1 :: c2 :: t) = c1 :: normalizeChunk (c2 :: t)
            from by simp [normalizeChunk, h1]]
        rw [show (c2 :: (t ++ b)) = ((c2 :: t) ++ b) from rfl]
        rw [ih (c2 :: t) b hlt hbt]
        rfl

theorem normalizeChunk_append {a b : List Char}
    (h : ¬(a.getLast? = some '\r' ∧ b.head? = some '\n')) :
    normalizeChunk (a ++ b) = normalizeChunk a ++ normalizeChunk b :=
  normalizeChunk_append_fuel a.length a b le_rfl h

theorem splitBuf_append (X Y : List Char) :
    splitBuf (X ++ Y) =
      ((splitBuf X).1 ++ (splitBuf ((splitBuf X).2 ++ Y)).1,
       (splitBuf ((splitBuf X).2 ++ Y)).2) := by
  induction X with
  | nil => simp [splitBuf]
  | cons c X2 ih =>
    by_cases hc : c = '\n'
    · subst hc
      show splitBuf ('\n' :: (X2 ++ Y)) = _
      rw [show splitBuf ('\n' :: (X2 ++ Y)) =
          ([] :: (splitBuf (X2 ++ Y)).1, (splitBuf (X2 ++ Y)).2) from by simp [splitBuf]]
      rw [show splitBuf ('\n' :: X2) =
          ([] :: (splitBuf X2).1, (splitBuf X2).2) from by simp [splitBuf]]
      rw [ih]
      simp
    · show splitBuf (c :: (X2 ++ Y)) = _
      cases hp : (splitBuf X2).1 with
      | nil =>
        have hX : splitBuf (c :: X2) = ([], c :: (splitBuf X2).2) := by
          simp [splitBuf, hc, hp]
        rw [hX]
        have hA : splitBuf (c :: (X2 ++ Y)) =
            match (splitBuf (X2 ++ Y)).1 with
            | [] => ([], c :: (splitBuf (X2 ++ Y)).2)
            | l :: ls2 => ((c :: l) :: ls2, (splitBuf (X2 ++ Y)).2) := by
          simp only [splitBuf, if_neg hc]
        have hB : splitBuf ((c :: (splitBuf X2).2) ++ Y) =
            match (splitBuf ((splitBuf X2).2 ++ Y)).1 with
            | [] => ([], c :: (splitBuf ((splitBuf X2).2 ++ Y)).2)
            | l :: ls2 => ((c :: l) :: ls2, (splitBuf ((splitBuf X2).2 ++ Y)).2) := by
          simp only [List.cons_append, splitBuf, if_neg hc]
          rfl
        rw [hA, ih, hp, hB]
        rfl
      | cons l ls2 =>
        have hX : splitBuf (c :: X2) = ((c :: l) :: ls2, (splitBuf X2).2) := by
          simp [splitBuf, hc, hp]
        rw [hX]
        have hA : splitBuf (c :: (X2 ++ Y)) =
            match (splitBuf (X2 ++ Y)).1 with
            | [] => ([], c :: (splitBuf (X2 ++ Y)).2)
            | l :: ls2 => ((c :: l) :: ls2, (splitBuf (X2 ++ Y)).2) := by
          simp only [splitBuf, if_neg hc]
        rw [hA, ih, hp]
        simp

theorem runLines_append (c : FCore) (L1 L2 : List (List Char)) :
    runLines c (L1 ++ L2) =
      match runLines c L1 with
      | .error e => .error e
      | .ok c2 => if c2.done then .ok c2 else runLines c2 L2 := by
  induction L1 generalizing c with
  | nil =>
    show runLines c L2 = if c.done then Except.ok c else runLines c L2
    by_cases hd : c.done
    · rw [if_pos hd]
      cases L2 with
      | nil => rfl
      | cons l ls => simp [runLines, hd]
    · rw [if_neg hd]
  | cons l L1' ih =>
    show runLines c ((l :: L1') ++ L2) = _
    by_cases hd : c.done
    · rw [show runLines c ((l :: L1') ++ L2) = .ok c from by simp [runLines, hd]]
      rw [show runLines c (l :: L1') = .ok c from by simp [runLines, hd]]
      simp [hd]
    · rw [show ((l :: L1') ++ L2) = l :: (L1' ++ L2) from rfl]
      rw [show runLines c (l :: (L1' ++ L2)) =
          (match handleLine c l with
           | .error e => .error e
           | .ok c2 => runLines c2 (L1' ++ L2)) from by simp [runLines, hd]]
      rw [show runLines c (l :: L1') =
          (match handleLine c l with
           | .error e => .error e
           | .ok c2 => runLines c2 L1') from by simp [runLines, hd]]
      cases hh : handleLine c l with
      | error e => rfl
      | ok c2 => exact ih c2

theorem feedF_done {p : FParser} (hd : p.core.done = true) (chunk : List Char) :
    feedF p chunk = (.ok (some p.core.res), p) := by
  simp [feedF, hd]

theorem feedF_nil {p : FParser} (hd : p.core.done = false) :
    feedF p [] = (.ok none, p) := by
  simp [feedF, hd]

theorem feedF_eq {p : FParser} {chunk : List Char} (hd : p.core.done = false)
    (hch : chunk ≠ []) :
    feedF p chunk =
      (match runLines p.core (splitBuf (p.hold ++ normalizeGo chunk)).1 with
       | .error e =>
         (.error e, { core := p.core, hold := (splitBuf (p.hold ++ normalizeGo chunk)).2 })
       | .ok c2 =>
         if c2.done then
           (.ok (some c2.res), { core := c2, hold := (splitBuf (p.hold ++ normalizeGo chunk)).2 })
         else (.ok none, { core := c2, hold := (splitBuf (p.hold ++ normalizeGo chunk)).2 })) := by
  rw [feedF]
  rw [if_neg (by simp [hd]), if_neg hch]

theorem runChunksGo_cons (p : FParser) (chunk : List Char) (rest : List (List Char)) :
    runChunksGo p (chunk :: rest) =
      match feedF p chunk with
      | (.error e, _) => .error e
      | (.ok (some r), _) => .ok r
      | (.ok none, p2) => runChunksGo p2 rest := rfl

theorem feedF_none_not_done {p p2 : FParser} {chunk : List Char}
    (h : feedF p chunk = (.ok none, p2)) : p2.core.done = false := by
  by_cases hd : p.core.done
  · rw [feedF_done hd] at h
    simp at h
  · by_cases hch : chunk = []
    · subst hch
      rw [feedF_nil (by simpa using hd)] at h
      have : p2 = p := by
        injection h with h1 h2
        exact h2.symm
      subst this
      simpa using hd
    · rw [feedF_eq (by simpa using hd) hch] at h
      revert h
      cases runLines p.core (splitBuf (p.hold ++ normalizeGo chunk)).1 with
      | error e => intro h; simp at h
      | ok c2 =>
        intro h
        by_cases hc2 : c2.done = true
        · rw [show (match (Except.ok c2 : Except PErr FCore) with
              | Except.error e =>
                ((Except.error e : Except PErr (Option FResult)),
                  ({ core := p.core, hold := (splitBuf (p.hold ++ normalizeGo chunk)).2 } : FParser))
              | Except.ok c2 =>
                if c2.done then
                  (Except.ok (some c2.res),
                    { core := c2, hold := (splitBuf (p.hold ++ normalizeGo chunk)).2 })
                else
                  (Except.ok none,
                    { core := c2, hold := (splitBuf (p.hold ++ normalizeGo chunk)).2 })) =
            (Except.ok (some c2.res),
              { core := c2, hold := (splitBuf (p.hold ++ normalizeGo chunk)).2 }) from by
            simp [hc2]] at h
          simp at h
        · rw [show (match (Except.ok c2 : Except PErr FCore) with
              | Except.error e =>
                ((Except.error e : Except PErr (Option FResult)),
                  ({ core := p.core, hold := (splitBuf (p.hold ++ normalizeGo chunk)).2 } : FParser))
              | Except.ok c2 =>
                if c2.done then
                  (Except.ok (some c2.res),
                    { core := c2, hold := (splitBuf (p.hold ++ normalizeGo chunk)).2 })
                else
                  (Except.ok none,
                    { core := c2, hold := (splitBuf (p.hold ++ normalizeGo chunk)).2 })) =
            (Except.ok none,
              { core := c2, hold := (splitBuf (p.hold ++ normalizeGo chunk)).2 }) from by
            simp [hc2]] at h
          injection h with h1 h2
          rw [← h2]
          simpa using hc2

theorem runChunksGo_merge (p : FParser) (a b : List Char) (cs : List (List Char))
    (hb : ¬(a.getLast? = some '\r' ∧ b.head? = some '\n')) :
    runChunksGo p ((a ++ b) :: cs) = runChunksGo p (a :: b :: cs) := by
  by_cases hd : p.core.done = true
  · rw [runChunksGo_cons, runChunksGo_cons, feedF_done hd, feedF_done hd]
  · have hd' : p.core.done = false := by simpa using hd
    by_cases ha : a = []
    · subst ha
      rw [show (([] : List Char) ++ b) = b from rfl]
      rw [runChunksGo_cons p [] (b :: cs), feedF_nil hd']
    · by_cases hbe : b = []
      · subst hbe
        rw [List.append_nil]
        rw [runChunksGo_cons p a cs, runChunksGo_cons p a ([] :: cs)]
        cases hfp : feedF p a with
        | mk o p2 =>
          cases o with
          | error e => rfl
          | ok or =>
            cases or with
            | some r => rfl
            | none =>
              have hp2 : p2.core.done = false := feedF_none_not_done hfp
              show runChunksGo p2 cs = runChunksGo p2 ([] :: cs)
              rw [runChunksGo_cons p2 [] cs, feedF_nil hp2]
      · have hnorm : normalizeGo (a ++ b) = normalizeGo a ++ normalizeGo b := by
          rw [normalizeGo_eq, normalizeGo_eq, normalizeGo_eq]
          exact normalizeChunk_append hb
        rw [runChunksGo_cons p (a ++ b) cs, runChunksGo_cons p a (b :: cs)]
        rw [feedF_eq hd' (by simp [ha]), feedF_eq hd' ha]
        rw [show p.hold ++ normalizeGo (a ++ b) =
            (p.hold ++ normalizeGo a) ++ normalizeGo b from by rw [hnorm, List.append_assoc]]
        rw [splitBuf_append (p.hold ++ normalizeGo a) (normalizeGo b)]
        rw [show ((splitBuf (p.hold ++ normalizeGo a)).1 ++
            (splitBuf ((splitBuf (p.hold ++ normalizeGo a)).2 ++ normalizeGo b)).1,
            (splitBuf ((splitBuf (p.hold ++ normalizeGo a)).2 ++ normalizeGo b)).2).1 =
          (splitBuf (p.hold ++ normalizeGo a)).1 ++
            (splitBuf ((splitBuf (p.hold ++ normalizeGo a)).2 ++ normalizeGo b)).1 from rfl]
        rw [runLines_append]
        cases hr1 : runLines p.core (splitBuf (p.hold ++ normalizeGo a)).1 with
        | error e => simp
        | ok c2 =>
          by_cases hc2 : c2.done = true
          · simp [hc2]
          · simp only [hc2]
            have hc2' : c2.done = false := by simpa using hc2
            simp only [Bool.false_eq_true, if_false]
            show _ = runChunksGo
              { core := c2, hold := (splitBuf (p.hold ++ normalizeGo a)).2 } (b :: cs)
            rw [runChunksGo_cons _ b cs]
            rw [feedF_eq (p := { core := c2, hold := (splitBuf (p.hold ++ normalizeGo a)).2 })
              hc2' hbe]
            cases hr2 : runLines c2
                (splitBuf ((splitBuf (p.hold ++ normalizeGo a)).2 ++ normalizeGo b)).1 with
            | error e => simp
            | ok c3 =>
              by_cases hc3 : c3.done = true
              · simp [hc3]
              · simp [hc3]

theorem runChunksGo_nil_chunk (p : FParser) : runChunksGo p [[]] = runChunksGo p [] := by
  by_cases hd : p.core.done = true
  · simp [runChunksGo, feedF, hd, finalizeF]
  · simp [runChunksGo, feedF, hd]

theorem runChunksGo_collapse (p : FParser) (cs : List (List Char)) :
    ∀ c, splitsOkFrom c cs = true →
      runChunksGo p (c :: cs) = runChunksGo p [c ++ cs.flatten] := by
  induction cs with
  | nil => intro c h; simp
  | cons d ds ih =>
    intro c h
    rw [splitsOkFrom] at h
    simp only [Bool.and_eq_true] at h
    obtain ⟨h1, h2⟩ := h
    have hb : ¬(c.getLast? = some '\r' ∧ d.head? = some '\n') := by
      rintro ⟨hc, hdh⟩
      have hflat : (d :: ds).flatten.head? = some '\n' := by
        cases d with
        | nil => simp at hdh
        | cons x xs =>
          have hx : x = '\n' := by simpa using hdh
          simp [List.flatten, hx]
      rw [hc, hflat] at h1
      simp at h1
    rw [← runChunksGo_merge p c d ds hb]
    rw [ih (c ++ d) h2]
    simp [List.append_assoc]

/-- C3 (corrected): the claim that the fenced parse result is independent of
how the text is split into chunks, *including* splits between the characters
of a CRLF pair, is false — normalization is per chunk, so a split between
'\r' and '\n' turns the pair into two newlines (see the counterexample).
Amended statement: whenever no chunk boundary falls between the '\r' and
'\n' of a CRLF pair (`splitsOk`), feeding the chunks one at a time and then
finalizing equals feeding the whole concatenation as one chunk. -/
theorem fenced_chunk_invariance (sid : List Char) (chunks : List (List Char))
    (h : splitsOk chunks = true) :
    runChunks sid chunks = runChunks sid [chunks.flatten] := by
  cases chunks with
  | nil => exact (runChunksGo_nil_chunk (newParser sid)).symm
  | cons c cs =>
    have h2 : splitsOkFrom c cs = true := by
      rw [splitsOk, splitsOkFrom] at h
      simpa using h
    exact runChunksGo_collapse (newParser sid) cs c h2

/-- C3 counterexample: a well-formed report split between the '\r' and '\n'
of a CRLF pair inside the details block parses differently chunked
(details become two lines) than as one chunk (details stay one CRLF line,
normalized to one newline). -/
theorem fenced_chunk_invariance_counterexample :
    runChunks "s".data
        ["```obi:s\nstatus: success\ncommit_msg: m\ndetails: |\n  a\r".data,
         "\n  b\n```\n".data] ≠
      runChunks "s".data
        [("```obi:s\nstatus: success\ncommit_msg: m\ndetails: |\n  a\r".data ++
          "\n  b\n```\n".data)] := by decide

/-- C3 witness: a concrete CRLF-clean split where the amended invariance
theorem applies. -/
theorem fenced_chunk_invariance_witness :
    splitsOk ["```obi:s\nstatus: success\n".data,
        "commit_msg: m\ndetails: |\n  x\n```\n".data] = true ∧
      runChunks "s".data ["```obi:s\nstatus: success\n".data,
          "commit_msg: m\ndetails: |\n  x\n```\n".data] =
        runChunks "s".data [(["```obi:s\nstatus: success\n".data,
          "commit_msg: m\ndetails: |\n  x\n```\n".data] : List (List Char)).flatten] :=
  ⟨by decide, fenced_chunk_invariance "s".data _ (by decide)⟩

/-- C1 (corrected): a ledger entry is assembled exactly when both parsers
succeed and agree on status under `EqualFold`, on details/commit body under
the code's `normalizeMultiline` (which trims the WHOLE text before trimming
trailing whitespace per line — not, as the claim says, per-line trailing
trimming alone), and on escalation after trimming.  The counterexample shows
an output the code accepts (entry appended) although the claim's per-line
normalization finds a details/commit-body disagreement. -/
theorem orchestrator_cross_check (secrets : List (List Char)) (sid out : List Char) :
    (executeSessionLedger secrets sid out).isSome = true ↔
      ∃ f ft, parseFencedReport sid out = Except.ok f ∧ footerParse out = Except.ok ft ∧
        eqFold f.status ft.status = true ∧
        normalizeMultiline f.details = normalizeMultiline ft.commitMsg ∧
        normalizeWhitespaceGo f.escalation = normalizeWhitespaceGo ft.escalation := by
  unfold executeSessionLedger reconcileSession
  cases hf : parseFencedReport sid out with
  | error e => simp
  | ok f =>
    cases hft : footerParse out with
    | error e => simp
    | ok ft =>
      by_cases h1 : eqFold f.status ft.status = false
      · simp [h1]
      · have h1' : eqFold f.status ft.status = true := by simpa using h1
        by_cases h2 : normalizeMultiline f.details = normalizeMultiline ft.commitMsg
        · by_cases h3 :
            normalizeWhitespaceGo f.escalation = normalizeWhitespaceGo ft.escalation
          · simp [h1', h2, h3]
          · simp [h1', h2, h3]
        · simp [h1', h2]

/-- C1 counterexample: the fenced details keep one leading space that
per-line trailing-whitespace trimming (the claim's normalization) does not
remove, so the claim's comparison disagrees ('` x`' vs '`x`'); the code's
`normalizeMultiline` trims the whole text first, the cross-check passes and
the ledger entry IS built for this session. -/
theorem orchestrator_cross_check_counterexample :
    parseFencedReport "s".data
        "```obi:s\nstatus: success\ncommit_msg: m\ndetails: |\n   x\n```\nSTATUS: success\nCOMMIT_MSG:\nx".data =
      Except.ok ⟨"s".data, "success".data, "m".data, " x".data, []⟩ ∧
    footerParse
        "```obi:s\nstatus: success\ncommit_msg: m\ndetails: |\n   x\n```\nSTATUS: success\nCOMMIT_MSG:\nx".data =
      Except.ok ⟨"success".data, "x".data, []⟩ ∧
    claimCrossAgrees ⟨"s".data, "success".data, "m".data, " x".data, []⟩
        ⟨"success".data, "x".data, []⟩ = false ∧
    (executeSessionLedger [] "s".data
        "```obi:s\nstatus: success\ncommit_msg: m\ndetails: |\n   x\n```\nSTATUS: success\nCOMMIT_MSG:\nx".data).isSome
      = true := by decide

/-- C5 (corrected): the cumulative buffer and the tee do carry the redacted
form, but every `LogChunk` event emitted by `streamWriter.Write` carries the
RAW chunk: the live `eventLogWriter` both writes to the operator stream and
emits the event, and it runs on the unredacted bytes before redaction
happens.  Amended statement: for a non-empty chunk, the emitted events are
exactly one `LogChunk` holding the raw chunk, the live stream gets the raw
chunk, and the tee and cumulative buffer get the redacted chunk. -/
theorem stream_write_redaction (secrets : List (List Char)) (buf p : List Char)
    (hp : p ≠ []) :
    (streamWrite secrets buf p).events = [SEv.logChunk p] ∧
    (streamWrite secrets buf p).liveOut = p ∧
    (streamWrite secrets buf p).teeOut = secretRedact secrets p ∧
    (streamWrite secrets buf p).buf = buf ++ secretRedact secrets p := by
  simp [streamWrite, eventLogWrite, hp]

/-- C5 counterexample: with configured secret `sec` and chunk containing it,
the emitted `LogChunk` event still contains the secret verbatim, while the
tee output is redacted. -/
theorem stream_write_redaction_counterexample :
    (streamWrite ["sec".data] [] "my sec here".data).events =
      [SEv.logChunk "my sec here".data] ∧
    containsSub "sec".data "my sec here".data = true ∧
    (streamWrite ["sec".data] [] "my sec here".data).teeOut =
      "my [REDACTED] here".data := by decide

/-- C5 witness for the amended theorem at a concrete non-empty chunk. -/
theorem stream_write_redaction_witness :
    ("my sec here".data ≠ []) ∧
    (streamWrite ["sec".data] "pre".data "my sec here".data).events =
      [SEv.logChunk "my sec here".data] ∧
    (streamWrite ["sec".data] "pre".data "my sec here".data).liveOut = "my sec here".data ∧
    (streamWrite ["sec".data] "pre".data "my sec here".data).teeOut =
      secretRedact ["sec".data] "my sec here".data ∧
    (streamWrite ["sec".data] "pre".data "my sec here".data).buf =
      "pre".data ++ secretRedact ["sec".data] "my sec here".data :=
  ⟨by decide, stream_write_redaction ["sec".data] "pre".data "my sec here".data (by decide)⟩

theorem sendSeq_take (es : List SEv) :
    ∀ q, sendSeq q es = q ++ es.take (eventBufferSize - q.length) := by
  induction es with
  | nil => intro q; simp [sendSeq]
  | cons e es ih =>
    intro q
    show sendSeq (sendLossy q e) es = _
    by_cases hq : q.length < eventBufferSize
    · rw [show sendLossy q e = q ++ [e] from by simp [sendLossy, hq]]
      rw [ih (q ++ [e])]
      have hk : eventBufferSize - q.length = (eventBufferSize - (q.length + 1)) + 1 := by
        omega
      simp [hk, List.take_succ_cons]
    · rw [show sendLossy q e = q from by simp [sendLossy, hq]]
      rw [ih q]
      have hk : eventBufferSize - q.length = 0 := by omega
      simp [hk]

/-- C6 (corrected): the emission sequence of `finish` is finite, in source
order, and ends with exactly one `Exit` event before the channel closes, and
a blocked send on the full 64-slot buffer drops exactly the events beyond
the free space — but `eventEmitter.send` is the same lossy non-blocking
select for EVERY event type, so under back-pressure `StateChange` and even
the final `Exit` event are dropped too (see the counterexample), not only
`LogChunk`s.  Amended statement: delivery keeps source order as a prefix of
the offered events (`take` of the free space), and the `finish` sequence
itself contains exactly one `Exit`, in final position. -/
theorem event_stream_emission (q es : List SEv) (hasErr : Bool) (code : Int) :
    sendSeq q es = q ++ es.take (eventBufferSize - q.length) ∧
    (finishEmission hasErr code).getLast? = some (SEv.exitEv code hasErr) ∧
    (finishEmission hasErr code).filter isExitEv = [SEv.exitEv code hasErr] := by
  refine ⟨sendSeq_take es q, ?_, ?_⟩
  · cases hasErr <;> simp [finishEmission]
  · cases hasErr <;> simp [finishEmission, isExitEv]

/-- C6 counterexample: with the 64-slot buffer already full of `LogChunk`s,
the whole `finish` emission — including its `StateChange`s and the final
`Exit` — is dropped: the delivered stream contains no `Exit` event at all. -/
theorem event_stream_emission_counterexample :
    sendSeq (List.replicate 64 (SEv.logChunk "x".data)) (finishEmission false 0) =
      List.replicate 64 (SEv.logChunk "x".data) ∧
    (sendSeq (List.replicate 64 (SEv.logChunk "x".data))
        (finishEmission false 0)).filter isExitEv = [] ∧
    (finishEmission false 0).filter isExitEv = [SEv.exitEv 0 false] := by decide

/-- C7 (confirmed): if `wait()` fails with an exit-code-bearing error and the
stream copy ended cleanly (or with EOF/closed), the code is recorded and the
run succeeds; any other wait error, or a copy error other than EOF/closed,
fails the run with the synthetic exit code 1 (the recorded code being 0 on
those paths); and the run fails exactly when such an error occurred. -/
theorem exit_semantics (w : WaitRes) (s : CopyRes) :
    (∀ c, w = WaitRes.exitErr c → s ≠ CopyRes.otherErr →
      startWaitOutcome w s = (c, false)) ∧
    ((w = WaitRes.otherErr ∨ s = CopyRes.otherErr) →
      startWaitOutcome w s = (1, true)) ∧
    ((startWaitOutcome w s).2 = false ↔
      (w ≠ WaitRes.otherErr ∧ s ≠ CopyRes.otherErr)) := by
  refine ⟨?_, ?_, ?_⟩
  · rintro c rfl hs
    simp [startWaitOutcome, hs, finishResult]
  · rintro (rfl | rfl)
    · cases s <;> simp [startWaitOutcome, finishResult] <;> decide
    · simp [startWaitOutcome, finishResult]
  · cases w <;> cases s <;> simp [startWaitOutcome, finishResult]

/-- C7 witness at concrete outcomes: an exit-code-bearing wait error with a
clean copy records code 7 and succeeds; a non-exit wait error fails with the
synthetic code 1. -/
theorem exit_semantics_witness :
    startWaitOutcome (WaitRes.exitErr 7) CopyRes.noErr = (7, false) ∧
    startWaitOutcome WaitRes.otherErr CopyRes.noErr = (1, true) :=
  ⟨(exit_semantics (WaitRes.exitErr 7) CopyRes.noErr).1 7 rfl (by decide),
   (exit_semantics WaitRes.otherErr CopyRes.noErr).2.1 (Or.inl rfl)⟩

theorem completedBeadsGo_ok (es : List LedgerRec) : ∀ seen acc,
    ((completedBeadsGo seen acc es).isOk = true ↔
      ∀ e ∈ es, lowerStr (trimWs e.status) = successStr ∧ trimWs e.beadID ≠ []) ∧
    ((∀ e ∈ es, lowerStr (trimWs e.status) = successStr ∧ trimWs e.beadID ≠ []) →
      completedBeadsGo seen acc es =
        Except.ok (acc ++ dedupCIGo seen (es.map (fun e => trimWs e.beadID)))) := by
  induction es with
  | nil =>
    intro seen acc
    constructor
    · simp [completedBeadsGo, Except.isOk, Except.toBool]
    · intro _
      simp [completedBeadsGo, dedupCIGo]
  | cons e rest ih =>
    intro seen acc
    have hmem : e ∈ e :: rest := List.mem_cons_self e rest
    by_cases h0 : lowerStr (trimWs e.status) = []
    · have hne : lowerStr (trimWs e.status) ≠ successStr := by
        rw [h0]; decide
      have hrun : completedBeadsGo seen acc (e :: rest) =
          Except.error (.missingStatus e.sessionID) := by
        simp [completedBeadsGo, h0]
      refine ⟨?_, fun h => (hne (h e hmem).1).elim⟩
      rw [hrun]
      constructor
      · intro h
        simp [Except.isOk, Except.toBool] at h
      · intro h
        exact (hne (h e hmem).1).elim
    · by_cases hs : lowerStr (trimWs e.status) = successStr
      · by_cases hb : trimWs e.beadID = []
        · have hrun : completedBeadsGo seen acc (e :: rest) =
              Except.error (.missingBead e.sessionID) := by
            simp [completedBeadsGo, h0, hs, hb, show successStr ≠ [] from by decide]
          refine ⟨?_, fun h => ((h e hmem).2 hb).elim⟩
          rw [hrun]
          constructor
          · intro h
            simp [Except.isOk, Except.toBool] at h
          · intro h
            exact ((h e hmem).2 hb).elim
        · by_cases hc : seen.contains (lowerStr (trimWs e.beadID)) = true
          · have hm : lowerStr (trimWs e.beadID) ∈ seen := by simpa using hc
            have hstep : completedBeadsGo seen acc (e :: rest) =
                completedBeadsGo seen acc rest := by
              simp [completedBeadsGo, h0, hs, hb, hm,
                show successStr ≠ [] from by decide]
            constructor
            · rw [hstep, (ih seen acc).1]
              constructor
              · intro h
                exact List.forall_mem_cons.mpr ⟨⟨hs, hb⟩, h⟩
              · intro h
                exact (List.forall_mem_cons.mp h).2
            · intro h
              rw [hstep, (ih seen acc).2 (List.forall_mem_cons.mp h).2]
              simp [dedupCIGo, hm]
          · have hm : lowerStr (trimWs e.beadID) ∉ seen := by simpa using hc
            have hstep : completedBeadsGo seen acc (e :: rest) =
                completedBeadsGo (lowerStr (trimWs e.beadID) :: seen)
                  (acc ++ [trimWs e.beadID]) rest := by
              simp [completedBeadsGo, h0, hs, hb, hm,
                show successStr ≠ [] from by decide]
            constructor
            · rw [hstep, (ih _ _).1]
              constructor
              · intro h
                exact List.forall_mem_cons.mpr ⟨⟨hs, hb⟩, h⟩
              · intro h
                exact (List.forall_mem_cons.mp h).2
            · intro h
              rw [hstep, (ih _ _).2 (List.forall_mem_cons.mp h).2]
              simp [dedupCIGo, hm, List.append_assoc]
      · have hrun : ∃ er, completedBeadsGo seen acc (e :: rest) = Except.error er := by
          by_cases hn : lowerStr (trimWs e.status) = needsHelpStr
          · exact ⟨LedgerErr.needsHelpEntry e.sessionID, by
              simp [completedBeadsGo, h0, hs, hn,
                show needsHelpStr ≠ [] from by decide,
                show needsHelpStr ≠ successStr from by decide]⟩
          · exact ⟨LedgerErr.unknownStatus e.sessionID e.status, by
              simp [completedBeadsGo, h0, hs, hn]⟩
        obtain ⟨er, hrun⟩ := hrun
        refine ⟨?_, fun h => (hs (h e hmem).1).elim⟩
        rw [hrun]
        constructor
        · intro h
          simp [Except.isOk, Except.toBool] at h
        · intro h
          exact (hs (h e hmem).1).elim

theorem completedBeadsGo_skip (pre : List LedgerRec) : ∀ seen acc es,
    (∀ e ∈ pre, lowerStr (trimWs e.status) = successStr ∧ trimWs e.beadID ≠ []) →
    ∃ seen2 acc2,
      completedBeadsGo seen acc (pre ++ es) = completedBeadsGo seen2 acc2 es := by
  induction pre with
  | nil =>
    intro seen acc es _
    exact ⟨seen, acc, rfl⟩
  | cons e pre ih =>
    intro seen acc es h
    have he := (List.forall_mem_cons.mp h).1
    have hpre := (List.forall_mem_cons.mp h).2
    by_cases hc : lowerStr (trimWs e.beadID) ∈ seen
    · have hstep : completedBeadsGo seen acc ((e :: pre) ++ es) =
          completedBeadsGo seen acc (pre ++ es) := by
        simp [completedBeadsGo, he.1, he.2, hc, show successStr ≠ [] from by decide]
      rw [hstep]
      exact ih seen acc es hpre
    · have hstep : completedBeadsGo seen acc ((e :: pre) ++ es) =
          completedBeadsGo (lowerStr (trimWs e.beadID) :: seen)
            (acc ++ [trimWs e.beadID]) (pre ++ es) := by
        simp [completedBeadsGo, he.1, he.2, hc, show successStr ≠ [] from by decide]
      rw [hstep]
      exact ih _ _ es hpre

/-- C8 (confirmed): over the epic's ledger entries in file order, resume
succeeds exactly when every entry has (case-insensitively) status `success`
with a non-empty trimmed `bead_id`, in which case it returns those bead ids
deduplicated case-insensitively in first-seen order; and with all entries
before some entry well-formed, an empty status, a success entry with empty
bead id, a `needs_help` entry, or an unknown status at that entry each
yields the corresponding error. -/
theorem completed_beads_resume (entries : List LedgerRec) (epicID : List Char) :
    ((completedBeadsFromLedger entries epicID).isOk = true ↔
      ∀ e ∈ ledgerEntriesForEpic entries epicID,
        lowerStr (trimWs e.status) = successStr ∧ trimWs e.beadID ≠ []) ∧
    ((∀ e ∈ ledgerEntriesForEpic entries epicID,
        lowerStr (trimWs e.status) = successStr ∧ trimWs e.beadID ≠ []) →
      completedBeadsFromLedger entries epicID =
        Except.ok (dedupCIGo []
          ((ledgerEntriesForEpic entries epicID).map (fun e => trimWs e.beadID)))) ∧
    (∀ pre e post,
      ledgerEntriesForEpic entries epicID = pre ++ e :: post →
      (∀ x ∈ pre, lowerStr (trimWs x.status) = successStr ∧ trimWs x.beadID ≠ []) →
      (lowerStr (trimWs e.status) = [] →
        completedBeadsFromLedger entries epicID =
          Except.error (LedgerErr.missingStatus e.sessionID)) ∧
      (lowerStr (trimWs e.status) = successStr → trimWs e.beadID = [] →
        completedBeadsFromLedger entries epicID =
          Except.error (LedgerErr.missingBead e.sessionID)) ∧
      (lowerStr (trimWs e.status) = needsHelpStr →
        completedBeadsFromLedger entries epicID =
          Except.error (LedgerErr.needsHelpEntry e.sessionID)) ∧
      (lowerStr (trimWs e.status) ≠ [] → lowerStr (trimWs e.status) ≠ successStr →
        lowerStr (trimWs e.status) ≠ needsHelpStr →
        completedBeadsFromLedger entries epicID =
          Except.error (LedgerErr.unknownStatus e.sessionID e.status))) := by
  refine ⟨(completedBeadsGo_ok _ [] []).1, ?_, ?_⟩
  · intro h
    rw [show completedBeadsFromLedger entries epicID =
        completedBeadsGo [] [] (ledgerEntriesForEpic entries epicID) from rfl,
      (completedBeadsGo_ok _ [] []).2 h]
    simp
  · intro pre e post heq hpre
    obtain ⟨seen2, acc2, hskip⟩ := completedBeadsGo_skip pre [] [] (e :: post) hpre
    have hred : completedBeadsFromLedger entries epicID =
        completedBeadsGo seen2 acc2 (e :: post) := by
      rw [show completedBeadsFromLedger entries epicID =
          completedBeadsGo [] [] (ledgerEntriesForEpic entries epicID) from rfl, heq]
      exact hskip
    refine ⟨?_, ?_, ?_, ?_⟩
    · intro h0
      rw [hred]
      simp [completedBeadsGo, h0]
    · intro hs hbe
      rw [hred]
      simp [completedBeadsGo, hs, hbe, show successStr ≠ [] from by decide]
    · intro hn
      rw [hred]
      simp [completedBeadsGo, hn, show needsHelpStr ≠ [] from by decide,
        show needsHelpStr ≠ successStr from by decide]
    · intro h0 hs hn
      rw [hred]
      simp [completedBeadsGo, h0, hs, hn]

/-- C8 witness: a concrete ledger where all entries are successes (bead ids
deduplicated case-insensitively, first-seen order kept) and a concrete
ledger whose second entry is `needs_help` (resume fails with that error). -/
theorem completed_beads_resume_witness :
    completedBeadsFromLedger
        [⟨"obi.v2".data, "s1".data, "e".data, "success".data, "B-1".data,
          [], [], [], 0, 0, 0, 0⟩,
         ⟨"obi.v2".data, "s2".data, "e".data, "Success ".data, "b-1".data,
          [], [], [], 0, 0, 0, 0⟩,
         ⟨"obi.v2".data, "s3".data, "e".data, "success".data, "b-2".data,
          [], [], [], 0, 0, 0, 0⟩] "e".data =
      Except.ok ["B-1".data, "b-2".data] ∧
    completedBeadsFromLedger
        [⟨"obi.v2".data, "s1".data, "e".data, "success".data, "B-1".data,
          [], [], [], 0, 0, 0, 0⟩,
         ⟨"obi.v2".data, "s2".data, "e".data, "needs_help".data, "b-2".data,
          [], [], [], 0, 0, 0, 0⟩] "e".data =
      Except.error (LedgerErr.needsHelpEntry "s2".data) :=
  ⟨by
    rw [(completed_beads_resume
      [⟨"obi.v2".data, "s1".data, "e".data, "success".data, "B-1".data,
        [], [], [], 0, 0, 0, 0⟩,
       ⟨"obi.v2".data, "s2".data, "e".data, "Success ".data, "b-1".data,
        [], [], [], 0, 0, 0, 0⟩,
       ⟨"obi.v2".data, "s3".data, "e".data, "success".data, "b-2".data,
        [], [], [], 0, 0, 0, 0⟩] "e".data).2.1 (by decide)]
    decide,
   by
    rw [((completed_beads_resume
      [⟨"obi.v2".data, "s1".data, "e".data, "success".data, "B-1".data,
        [], [], [], 0, 0, 0, 0⟩,
       ⟨"obi.v2".data, "s2".data, "e".data, "needs_help".data, "b-2".data,
        [], [], [], 0, 0, 0, 0⟩] "e".data).2.2
      [⟨"obi.v2".data, "s1".data, "e".data, "success".data, "B-1".data,
        [], [], [], 0, 0, 0, 0⟩]
      ⟨"obi.v2".data, "s2".data, "e".data, "needs_help".data, "b-2".data,
        [], [], [], 0, 0, 0, 0⟩
      [] (by decide) (by decide)).2.2.1 (by decide)]⟩

/-- C9 (corrected): the persisted entry does force the schema version, trim
the three text fields, and clamp negative spans to zero — but the claim's
formula `duration_ms = max(0, completed_at - started_at)` fails for zero
timestamps: `durationMillis` returns 0 whenever either timestamp is the zero
time, whatever the other one is (see the counterexample).  Amended
statement: schema forced, fields trimmed, `duration_ms = 0` when either
timestamp is zero, and `duration_ms = max(0, (completed_at - started_at) in
milliseconds)` when both are non-zero. -/
theorem ledger_append_invariants (e : LedgerRec) :
    (appendedLedgerRecord e).schemaVersion = ledgerSchemaVersionStr ∧
    (appendedLedgerRecord e).commitSummary = trimWs e.commitSummary ∧
    (appendedLedgerRecord e).commitDetails = trimWs e.commitDetails ∧
    (appendedLedgerRecord e).escalation = trimWs e.escalation ∧
    (e.startedAt ≠ 0 → e.completedAt ≠ 0 →
      (appendedLedgerRecord e).durationMs =
        max 0 ((e.completedAt - e.startedAt) / 1000000)) ∧
    ((e.startedAt = 0 ∨ e.completedAt = 0) →
      (appendedLedgerRecord e).durationMs = 0) := by
  refine ⟨rfl, rfl, rfl, rfl, ?_, ?_⟩
  · intro h1 h2
    show durationMillis e.startedAt e.completedAt = _
    rw [durationMillis, if_neg (by tauto)]
    by_cases hlt : e.completedAt < e.startedAt
    · rw [if_pos hlt]
      have hq : (e.completedAt - e.startedAt) / 1000000 ≤ 0 :=
        le_of_lt (Int.ediv_neg' (by omega) (by decide))
      exact (max_eq_left hq).symm
    · rw [if_neg hlt]
      have hq : 0 ≤ (e.completedAt - e.startedAt) / 1000000 :=
        Int.ediv_nonneg (by omega) (by decide)
      exact (max_eq_right hq).symm
  · intro h
    show durationMillis e.startedAt e.completedAt = 0
    rw [durationMillis, if_pos h]

/-- C9 counterexample: with a zero `started_at` and a one-second
`completed_at`, the code records `duration_ms = 0` although the claim's
`max(0, completed_at - started_at)` is 1000 ms. -/
theorem ledger_append_counterexample :
    (appendedLedgerRecord
        ⟨[], [], [], [], [], [], [], [], 0, 1000000000, 77, 0⟩).durationMs = 0 ∧
    max (0 : Int) (((1000000000 : Int) - 0) / 1000000) = 1000 := by decide

/-- C9 witness: both timestamps non-zero, forced schema, trimmed fields and
the millisecond duration from the amended theorem at a concrete entry. -/
theorem ledger_append_invariants_witness :
    (appendedLedgerRecord
        ⟨"old".data, "s".data, "e".data, "success".data, "b".data,
          " m ".data, " d ".data, " x ".data, 2000000, 5000000, 77, 0⟩).durationMs =
      max 0 (((5000000 : Int) - 2000000) / 1000000) :=
  (ledger_append_invariants
    ⟨"old".data, "s".data, "e".data, "success".data, "b".data,
      " m ".data, " d ".data, " x ".data, 2000000, 5000000, 77, 0⟩).2.2.2.2.1
    (by decide) (by decide)

theorem isUpper_lowerChar (c : Char) : isUpperASCII (lowerChar c) = false := by
  unfold lowerChar
  by_cases h : 65 ≤ c.toNat ∧ c.toNat ≤ 90
  · rw [if_pos h]
    have hv : (c.toNat + 32).isValidChar := Or.inl (by omega)
    have htn : (Char.ofNat (c.toNat + 32)).toNat = c.toNat + 32 := by
      rw [Char.ofNat, dif_pos hv]
      simp [Char.toNat, Char.ofNatAux, UInt32.toNat, UInt32.ofNatCore]
    simp [isUpperASCII, htn]
    omega
  · rw [if_neg h]
    simpa [isUpperASCII] using h

theorem lowerStr_no_upper (s : List Char) : ∀ ch ∈ lowerStr s, isUpperASCII ch = false := by
  intro ch hch
  obtain ⟨c, _, rfl⟩ := List.mem_map.mp hch
  exact isUpper_lowerChar c

theorem epicRoot_no_upper (epicID : List Char) :
    ∀ ch ∈ epicRoot epicID, isUpperASCII ch = false := by
  intro ch hch
  rw [epicRoot] at hch
  split at hch
  all_goals try split at hch
  all_goals try split at hch
  all_goals
    first
      | exact lowerStr_no_upper _ ch hch
      | exact lowerStr_no_upper _ ch (List.mem_of_mem_take hch)

theorem isBeadStart_no_upper (c : Char) (h : isBeadStart c = true) :
    isUpperASCII c = false := by
  simp [isBeadStart, isLowerASCII, isDigitASCII] at h
  simp [isUpperASCII]
  omega

theorem isBeadCh_no_upper (c : Char) (h : isBeadCh c = true) :
    isUpperASCII c = false := by
  by_cases hs : isBeadStart c = true
  · exact isBeadStart_no_upper c hs
  · have hd : c = '.' ∨ c = '-' := by
      simp [isBeadCh, hs] at h
      exact h
    rcases hd with rfl | rfl <;> decide

theorem tryBead_shape (root s m : List Char)
    (hr : ∀ ch ∈ root, isUpperASCII ch = false) (h : tryBead root s = some m) :
    (root ++ ['-']) <+: m ∧ ∀ ch ∈ m, isUpperASCII ch = false := by
  rw [tryBead] at h
  cases hsp : stripPre (root ++ ['-']) s with
  | none => rw [hsp] at h; cases h
  | some rest =>
    rw [hsp] at h
    cases rest with
    | nil => cases h
    | cons c rest2 =>
      have h' : (if isBeadStart c = true
          then some (root ++ '-' :: c :: rest2.takeWhile isBeadCh) else none) =
          some m := h
      by_cases hb : isBeadStart c = true
      · rw [if_pos hb] at h'
        injection h' with h'
        subst h'
        constructor
        · exact ⟨c :: rest2.takeWhile isBeadCh, by simp⟩
        · intro ch hch
          rcases List.mem_append.mp hch with hch | hch
          · exact hr ch hch
          · rcases List.mem_cons.mp hch with rfl | hch
            · decide
            · rcases List.mem_cons.mp hch with rfl | hch
              · exact isBeadStart_no_upper ch hb
              · exact isBeadCh_no_upper ch (List.mem_takeWhile_imp hch)
      · rw [if_neg hb] at h'
        cases h'

theorem findBead_shape (root : List Char)
    (hr : ∀ ch ∈ root, isUpperASCII ch = false) :
    ∀ s m, findBead root s = some m →
      (root ++ ['-']) <+: m ∧ ∀ ch ∈ m, isUpperASCII ch = false := by
  intro s
  induction s with
  | nil => intro m h; cases h
  | cons c rest ih =>
    intro m h
    rw [findBead] at h
    cases ht : tryBead root (c :: rest) with
    | some m2 =>
      rw [ht] at h
      injection h with h
      subst h
      exact tryBead_shape root (c :: rest) _ hr ht
    | none =>
      rw [ht] at h
      exact ih m h

theorem findFirstBead_shape (root : List Char)
    (hr : ∀ ch ∈ root, isUpperASCII ch = false) :
    ∀ ts, findFirstBead root ts = [] ∨
      ((root ++ ['-']) <+: findFirstBead root ts ∧
        ∀ ch ∈ findFirstBead root ts, isUpperASCII ch = false) := by
  intro ts
  induction ts with
  | nil => exact Or.inl rfl
  | cons t ts ih =>
    by_cases hz : t = []
    · rw [show findFirstBead root (t :: ts) = findFirstBead root ts from by
        simp [findFirstBead, hz]]
      exact ih
    · cases hf : findBead root (lowerStr t) with
      | some m =>
        rw [show findFirstBead root (t :: ts) = m from by
          simp [findFirstBead, hz, hf]]
        exact Or.inr (findBead_shape root hr (lowerStr t) m hf)
      | none =>
        rw [show findFirstBead root (t :: ts) = findFirstBead root ts from by
          simp [findFirstBead, hz, hf]]
        exact ih

/-- C10 (confirmed): `detectBeadID` returns either the empty string or a
token that starts with the lowercased epic root followed by `-` and contains
no upper-case ASCII letter — so a bead id recorded via output detection is
lowercase even when the Agent printed it in upper case. -/
theorem detect_bead_lowercase (epicID : List Char) (texts : List (List Char)) :
    detectBeadID epicID texts = [] ∨
      ((epicRoot epicID ++ ['-']) <+: detectBeadID epicID texts ∧
        ∀ ch ∈ detectBeadID epicID texts, isUpperASCII ch = false) := by
  rw [detectBeadID]
  by_cases hz : trimWs epicID = []
  · rw [if_pos hz]
    exact Or.inl rfl
  · rw [if_neg hz]
    exact findFirstBead_shape (epicRoot epicID) (epicRoot_no_upper epicID) texts
